import Mathlib

/-!
The benchmark schbench: histogram, percentiles, request lists and pacing arithmetic.

A shallow embedding of the measurement engine of `schbench.c` in the LP64 data
model of its supported targets (`int` and `unsigned int` 32 bits, `long`,
`unsigned long`, `unsigned long long`, `time_t` and `suseconds_t` 64 bits).

* Unsigned machine integers are natural numbers reduced modulo `2 ^ w` wherever
  the C type wraps.
* `exit(1)`, a read of memory that was never written and an out-of-range
  conversion are `none`.
* `float` and `double` operations are correctly rounded operations (round to
  nearest, ties to even, 24 and 53 significant bits) on non-negative fractions.
* Loops are recursive functions with an explicit iteration budget.
-/

namespace Schbench

/-! ## Definitions -/

/-! ### Binary floating point on non-negative fractions -/

/-- Number of binary digits of `n`, with an explicit recursion budget. -/
def bitlenAux : Nat → Nat → Nat
  | 0, _ => 0
  | fuel + 1, n => if n = 0 then 0 else bitlenAux fuel (n / 2) + 1

/-- Number of binary digits of `n` (`0` for `0`). -/
def bitlen (n : Nat) : Nat := bitlenAux n n

/-- A non-negative rational `num / den`, not normalised. -/
structure Frac where
  num : Nat
  den : Nat
deriving DecidableEq, Repr

namespace Frac

/-- The rational number a fraction denotes. -/
def toQ (x : Frac) : ℚ := (x.num : ℚ) / (x.den : ℚ)

/-- Order of fractions by cross multiplication. -/
def le (x y : Frac) : Prop := x.num * y.den ≤ y.num * x.den

/-- Strict order of fractions by cross multiplication. -/
def lt (x y : Frac) : Prop := x.num * y.den < y.num * x.den

instance (x y : Frac) : Decidable (Frac.le x y) := by
  unfold Frac.le; infer_instance

instance (x y : Frac) : Decidable (Frac.lt x y) := by
  unfold Frac.lt; infer_instance

/-- Exact sum. -/
def add (x y : Frac) : Frac := ⟨x.num * y.den + y.num * x.den, x.den * y.den⟩

/-- Exact truncated difference (`0` when `y` exceeds `x`). -/
def sub (x y : Frac) : Frac := ⟨x.num * y.den - y.num * x.den, x.den * y.den⟩

/-- Exact product. -/
def mul (x y : Frac) : Frac := ⟨x.num * y.num, x.den * y.den⟩

/-- Exact quotient. -/
def div (x y : Frac) : Frac := ⟨x.num * y.den, x.den * y.num⟩

/-- The fraction `n / 1`. -/
def ofNat (n : Nat) : Frac := ⟨n, 1⟩

/-- Integer part. -/
def floor (x : Frac) : Nat := x.num / x.den

/-- Least integer not below the fraction. -/
def ceil (x : Frac) : Nat := (x.num + x.den - 1) / x.den

/-- The fraction `k * 2 ^ dn / 2 ^ up` with the common power of two cancelled. -/
def scale2 (k dn up : Nat) : Frac :=
  if up ≤ dn then ⟨k * 2 ^ (dn - up), 1⟩ else ⟨k, 2 ^ (up - dn)⟩

end Frac

/-- Nearest integer to `a / b`, ties to the even neighbour. -/
def rhe (a b : Nat) : Nat :=
  if 2 * (a % b) < b then a / b
  else if b < 2 * (a % b) then a / b + 1
  else a / b + (a / b) % 2

/-- Round to nearest, ties to even, with `p` significant binary digits and an
unbounded exponent range: the result of one IEEE 754 operation whose exact
value is `x`, as long as it neither overflows nor is subnormal. -/
def fl (p : Nat) (x : Frac) : Frac :=
  if x.num = 0 then ⟨0, 1⟩
  else if 2 ^ p * (x.den * 2 ^ bitlen x.num) ≤ x.num * 2 ^ (p + bitlen x.den) then
    Frac.scale2 (rhe (x.num * 2 ^ (p + bitlen x.den)) (2 * (x.den * 2 ^ bitlen x.num)))
      (bitlen x.num + 1) (p + bitlen x.den)
  else
    Frac.scale2 (rhe (x.num * 2 ^ (p + bitlen x.den)) (x.den * 2 ^ bitlen x.num))
      (bitlen x.num) (p + bitlen x.den)

/-- Rounding to C `double` (53 significant bits). -/
def fl64 (x : Frac) : Frac := fl 53 x

/-- Rounding to C `float` (24 significant bits). -/
def fl32 (x : Frac) : Frac := fl 24 x

/-! ### Constants of the source -/

def PLAT_BITS : Nat := 8
def PLAT_VAL : Nat := 1 <<< PLAT_BITS
def PLAT_GROUP_NR : Nat := 19
def PLAT_NR : Nat := PLAT_GROUP_NR * PLAT_VAL
def PLAT_LIST_MAX : Nat := 20
def USEC_PER_SEC : Nat := 1000000

/-- Range of `unsigned int`. -/
def UINT : Nat := 2 ^ 32

/-- Range of `unsigned long` and `unsigned long long`. -/
def ULONG : Nat := 2 ^ 64

/-! ### The latency histogram -/

/-- The compiler builtin `__builtin_clz` on a non-zero 32-bit value. -/
def builtin_clz (val : Nat) : Nat := 32 - bitlen val

/-- Bucket index of a sample (`plat_val_to_idx`). -/
def plat_val_to_idx (val : Nat) : Nat :=
  let msb := if val = 0 then 0 else 4 * 8 - builtin_clz val - 1
  if msb ≤ PLAT_BITS then val
  else
    let error_bits := msb - PLAT_BITS
    let base := ((error_bits + 1) <<< PLAT_BITS) % UINT
    let offset := (PLAT_VAL - 1) &&& (val >>> error_bits)
    if (base + offset) % UINT < PLAT_NR - 1 then (base + offset) % UINT
    else PLAT_NR - 1

/-- Value represented by a bucket (`plat_idx_to_val`); `none` is the
`exit(1)` taken for an index outside the array.  The mean of the bucket is
computed in `double` and converted back to `unsigned int` by truncation. -/
def plat_idx_to_val (idx : Nat) : Option Nat :=
  if idx ≥ PLAT_NR then none
  else if idx < PLAT_VAL <<< 1 then some idx
  else
    let error_bits := (idx >>> PLAT_BITS) - 1
    let base := (1 <<< (error_bits + PLAT_BITS)) % UINT
    let k := idx % PLAT_VAL
    let half := fl64 (Frac.add (fl64 (Frac.ofNat k)) ⟨1, 2⟩)
    let mean := fl64 (Frac.mul half (fl64 (Frac.ofNat (1 <<< error_bits))))
    some (Frac.floor (fl64 (Frac.add (fl64 (Frac.ofNat base)) mean)) % UINT)


/-- `struct stats`: the bucket counters are `unsigned int`, `nr_samples` is
`unsigned long`. -/
structure stats where
  plat : Nat → Nat
  nr_samples : Nat
  max : Nat
  min : Nat

/-- A `stats` after `memset(…, 0, …)`. -/
def stats_zero : stats := ⟨fun _ => 0, 0, 0, 0⟩

/-- The table `plist` of percentiles to report: five `double` literals, the
rest of the `PLAT_LIST_MAX` entries zero. -/
def plist : List Frac :=
  [fl64 ⟨200, 10⟩, fl64 ⟨500, 10⟩, fl64 ⟨900, 10⟩, fl64 ⟨990, 10⟩, fl64 ⟨999, 10⟩]
    ++ List.replicate 15 ⟨0, 1⟩

/-- The scan `while (len < PLAT_LIST_MAX && plist[len] != 0.0) len++`. -/
def plist_len : Nat → Nat → Nat
  | 0, len => len
  | fuel + 1, len =>
    if len < PLAT_LIST_MAX ∧ (plist.getD len ⟨0, 1⟩).num ≠ 0 then plist_len fuel (len + 1)
    else len

/-- The `double` expression `plist[j] / 100.0 * nr`. -/
def pct_threshold (j nr : Nat) : Frac :=
  fl64 (Frac.mul (fl64 (Frac.div (plist.getD j ⟨0, 1⟩) ⟨100, 1⟩)) (fl64 (Frac.ofNat nr)))

/-- The loop test `sum >= (plist[j] / 100.0 * nr)`, `sum` converted to `double`. -/
def pct_reached (j nr sum : Nat) : Prop :=
  Frac.le (pct_threshold j nr) (fl64 (Frac.ofNat sum))

instance (j nr sum : Nat) : Decidable (pct_reached j nr sum) := by
  unfold pct_reached; infer_instance

/-- Local variables of `calc_percentiles` that its main loop changes.  The two
output arrays are the lists of the cells written so far. -/
structure pstate where
  sum : Nat
  j : Nat
  ovals : List Nat
  ocounts : List Nat
  is_last : Bool
deriving DecidableEq, Repr

/-- The assignment `a[j] = v` on an array whose cells `0 .. a.length - 1` have
been written. -/
def store (a : List Nat) (j v : Nat) : List Nat :=
  if j < a.length then a.set j v else a ++ [v]

/-- The inner `while` loop of `calc_percentiles` at bucket `i`; `none` is the
`exit(1)` of `plat_idx_to_val`. -/
def pct_inner : Nat → Nat → Nat → Nat → pstate → Option pstate
  | 0, _, _, _, st => some st
  | fuel + 1, len, nr, i, st =>
    if pct_reached st.j nr st.sum then
      match plat_idx_to_val i with
      | none => none
      | some v =>
        let st1 : pstate :=
          { st with ovals := store st.ovals st.j v, ocounts := store st.ocounts st.j st.sum,
                    is_last := decide (st.j = len - 1) }
        if st1.is_last then some st1
        else pct_inner fuel len nr i { st1 with j := st1.j + 1 }
    else some st

/-- The loop `for (i = 0; i < PLAT_NR && !is_last; i++)` of `calc_percentiles`,
with `fuel = PLAT_NR - i` iterations left. -/
def pct_outer : Nat → Nat → (Nat → Nat) → Nat → Nat → pstate → Option pstate
  | 0, _, _, _, _, st => some st
  | fuel + 1, len, plat, nr, i, st =>
    if st.is_last then some st
    else
      match pct_inner len len nr i { st with sum := (st.sum + plat i) % ULONG } with
      | none => none
      | some st1 => pct_outer fuel len plat nr (i + 1) st1

/-- The loop `for (i = 1; i < len; i++) { last += ocounts[i - 1]; ocounts[i] -= last; }`;
`none` when it reads a cell that was never written. -/
def sub_last : Nat → Nat → Nat → List Nat → Option (List Nat)
  | 0, _, _, oc => some oc
  | fuel + 1, i, last, oc =>
    match oc[i - 1]?, oc[i]? with
    | some a, some b =>
      sub_last fuel (i + 1) ((last + a) % ULONG)
        (oc.set i ((b + ULONG - (last + a) % ULONG) % ULONG))
    | _, _ => none

/-- What `calc_percentiles` hands back: its return value and the two arrays. -/
structure percentiles where
  len : Nat
  ovals : List Nat
  ocounts : List Nat
deriving DecidableEq, Repr

/-- The function `calc_percentiles(io_u_plat, nr, &output, &output_counts)`. -/
def calc_percentiles (io_u_plat : Nat → Nat) (nr : Nat) : Option percentiles :=
  let len := plist_len PLAT_LIST_MAX 0
  if len = 0 then some ⟨0, [], []⟩
  else
    match pct_outer PLAT_NR len io_u_plat nr 0 ⟨0, 0, [], [], false⟩ with
    | none => none
    | some st =>
      match sub_last (len - 1) 1 0 st.ocounts with
      | none => none
      | some oc => some ⟨len, st.ovals, oc⟩

/-- Sum of the first `n` bucket counters, `plat[0] + … + plat[n - 1]`. -/
def psum (plat : Nat → Nat) : Nat → Nat
  | 0 => 0
  | n + 1 => psum plat n + plat n

/-- Cumulative bucket count `plat[0] + … + plat[i]`. -/
def cumsum (plat : Nat → Nat) (i : Nat) : Nat := psum plat (i + 1)

/-- Bucket `idx` is the first one whose cumulative count passes the loop test
of percentile `j`. -/
def first_reached (plat : Nat → Nat) (nr j idx : Nat) : Prop :=
  pct_reached j nr (cumsum plat idx) ∧ ∀ i < idx, ¬ pct_reached j nr (cumsum plat i)

/-- Every cell written so far holds the value and the cumulative count of the
first bucket that reached its percentile. -/
def recorded (plat : Nat → Nat) (nr : Nat) (ovals ocounts : List Nat) : Prop :=
  ovals.length = ocounts.length ∧
  ∀ j < ovals.length, ∃ idx, idx < PLAT_NR ∧ first_reached plat nr j idx ∧
    ovals[j]? = plat_idx_to_val idx ∧ ocounts[j]? = some (cumsum plat idx)

/-- The function `add_lat`: record one latency sample. -/
def add_lat (s : stats) (us : Nat) : stats :=
  { plat := Function.update s.plat (plat_val_to_idx us)
              ((s.plat (plat_val_to_idx us) + 1) % UINT),
    nr_samples := (s.nr_samples + 1) % ULONG,
    max := if us > s.max then us else s.max,
    min := if s.min = 0 ∨ us < s.min then us else s.min }

/-- The function `combine_stats(d, s)`: fold `s` into `d`. -/
def combine_stats (d s : stats) : stats :=
  { plat := fun i => if i < PLAT_NR then (d.plat i + s.plat i) % UINT else d.plat i,
    nr_samples := (d.nr_samples + s.nr_samples) % ULONG,
    max := if s.max > d.max then s.max else d.max,
    min := if d.min = 0 ∨ s.min < d.min then s.min else d.min }

/-- The reported percentiles 20, 50, 90, 99 and 99.9 as exact fractions, for
comparison with the rounded table `plist`. -/
def plist_exact : List Frac := [⟨20, 1⟩, ⟨50, 1⟩, ⟨90, 1⟩, ⟨99, 1⟩, ⟨999, 10⟩]

/-- The test `sum ≥ p_j / 100 · nr` in exact arithmetic. -/
def exact_reached (j nr sum : Nat) : Prop :=
  Frac.le (Frac.mul (Frac.div (plist_exact.getD j ⟨0, 1⟩) ⟨100, 1⟩) (Frac.ofNat nr))
    (Frac.ofNat sum)

instance (j nr sum : Nat) : Decidable (exact_reached j nr sum) := by
  unfold exact_reached; infer_instance

/-- A histogram of 1000 samples: 999 in bucket 0 and one in bucket 1. -/
def hist_999_1 : Nat → Nat := fun i => if i = 0 then 999 else if i = 1 then 1 else 0

/-! ### Time differences -/

/-- `struct timeval`; both fields are signed 64-bit (`time_t`, `suseconds_t`). -/
structure timeval where
  tv_sec : Int
  tv_usec : Int
deriving DecidableEq, Repr

/-- The function `tvsub(tdiff, t1, t0)`; the result is `*tdiff`, `none` is the
`exit(1)` after "test time ran backwards". -/
def tvsub (t1 t0 : timeval) : Option timeval :=
  let sec := t1.tv_sec - t0.tv_sec
  let usec := t1.tv_usec - t0.tv_usec
  let borrowed : Option timeval :=
    if usec < 0 ∧ sec > 0 then
      if usec + (USEC_PER_SEC : Int) < 0 then none
      else some ⟨sec - 1, usec + (USEC_PER_SEC : Int)⟩
    else some ⟨sec, usec⟩
  match borrowed with
  | none => none
  | some td =>
    if td.tv_usec < 0 ∨ t1.tv_sec < t0.tv_sec then some ⟨0, 0⟩ else some td

/-- Conversion of a signed value to `unsigned long long`. -/
def to_ull (x : Int) : Nat := (x % (ULONG : Int)).toNat

/-- The function `tvdelta(start, stop)`: microseconds from `start` to `stop`,
accumulated in `unsigned long long`. -/
def tvdelta (start stop : timeval) : Option Nat :=
  match tvsub stop start with
  | none => none
  | some td => some ((to_ull td.tv_sec * USEC_PER_SEC % ULONG + to_ull td.tv_usec) % ULONG)

/-- The instant a `timeval` denotes, in microseconds. -/
def timeval.usecs (t : timeval) : Int := t.tv_sec * 1000000 + t.tv_usec

/-! ### Back pressure on the request queues -/

/-- One pass of the body of the injection loop of `run_rps_thread` that
targets worker `w`: `if (worker->pending > 8) continue; worker->pending++;`.
The argument is the `pending` counter of every worker. -/
def run_rps_thread_inject (pending : Nat → Nat) (w : Nat) : Nat → Nat :=
  if pending w > 8 then pending
  else Function.update pending w ((pending w + 1) % ULONG)

/-- The statement `td->pending = 0` of `msg_and_wait`, run by worker `w`. -/
def msg_and_wait_reset (pending : Nat → Nat) (w : Nat) : Nat → Nat :=
  Function.update pending w 0

/-- States of the `pending` counters reachable from all zero by injector and
worker steps in any order. -/
inductive rps_reachable : (Nat → Nat) → Prop
  | init : rps_reachable (fun _ => 0)
  | inject (p : Nat → Nat) (w : Nat) :
      rps_reachable p → rps_reachable (run_rps_thread_inject p w)
  | reset (p : Nat → Nat) (w : Nat) :
      rps_reachable p → rps_reachable (msg_and_wait_reset p w)

/-! ### The observer loop -/

/-- Product of two `int`s, wrapped to 32 bits two's complement. -/
def int_mul (a b : Int) : Int := Int.bmod (a * b) (2 ^ 32)

/-- The initialiser `unsigned long long runtime_usec = runtime * USEC_PER_SEC`. -/
def runtime_usec (runtime : Int) : Nat := to_ull (int_mul runtime (USEC_PER_SEC : Int))

/-- The statement `if (runtime_usec && runtime_delta >= runtime_usec) done = 1;`
of `sleep_for_runtime`. -/
def sleep_for_runtime_done (runtime : Int) (runtime_delta : Nat) (done : Bool) : Bool :=
  if runtime_usec runtime ≠ 0 ∧ runtime_delta ≥ runtime_usec runtime then true else done

/-! ### The request intake list -/

/-- The memory the request list functions work on: the head pointer
`td->request` and the `next` field of every request, by address.  The null
pointer is `0`. -/
structure intake where
  request : Nat
  next : Nat → Nat

/-- The function `request_add(head, add)`; the loop runs until the
compare-and-swap succeeds, `none` is an exhausted iteration budget.  The
result is the memory and the returned old head. -/
def request_add : Nat → intake → Nat → Option (intake × Nat)
  | 0, _, _ => none
  | fuel + 1, m, add =>
    let old := m.request
    let m1 : intake := { m with next := Function.update m.next add old }
    let ret := m1.request
    let m2 : intake := { m1 with request := if m1.request = old then add else m1.request }
    if ret = old then some (m2, old) else request_add fuel m2 add

/-- The first loop of `request_splice`: swap the head with `NULL`. -/
def splice_head : Nat → intake → Option (intake × Nat)
  | 0, _ => none
  | fuel + 1, m =>
    let old := m.request
    let ret := m.request
    let m1 : intake := { m with request := if m.request = old then 0 else m.request }
    if ret = old then some (m1, ret) else splice_head fuel m1

/-- The second loop of `request_splice`: `while (ret) { tmp = ret; ret = ret->next;
tmp->next = reverse; reverse = tmp; }`. -/
def reverse_loop : Nat → (Nat → Nat) → Nat → Nat → Option ((Nat → Nat) × Nat)
  | 0, _, _, _ => none
  | fuel + 1, next, ret, reverse =>
    if ret ≠ 0 then reverse_loop fuel (Function.update next ret reverse) (next ret) ret
    else some (next, reverse)

/-- The function `request_splice(head)`; the result is the memory and the
returned pointer. -/
def request_splice (fuel : Nat) (m : intake) : Option (intake × Nat) :=
  match splice_head fuel m with
  | none => none
  | some (m1, ret) =>
    match reverse_loop fuel m1.next ret 0 with
    | none => none
    | some (next, reverse) => some ({ m1 with next := next }, reverse)

/-- Calls of `request_add` for the requests of a list, first to last. -/
def request_add_all : intake → List Nat → Option intake
  | m, [] => some m
  | m, r :: rs =>
    match request_add 1 m r with
    | none => none
    | some (m1, _) => request_add_all m1 rs

/-- The chain of `next` pointers from `p` visits exactly the addresses of `l`,
in order, and ends in `NULL`. -/
def is_list (next : Nat → Nat) : Nat → List Nat → Prop
  | p, [] => p = 0
  | p, a :: l => p = a ∧ a ≠ 0 ∧ is_list next (next a) l

/-! ### Rate autoscaling -/

/-- The globals `auto_scale_rps` reads and writes. -/
structure scaler where
  requests_per_sec : Nat
  auto_rps : Nat
  auto_rps_target_hit : Bool
  rps_stats : stats

/-- The block `if (… && !auto_rps_target_hit) { auto_rps_target_hit = 1;
memset(&rps_stats, 0, sizeof(rps_stats)); }` once its first test holds. -/
def mark_target_hit (s : scaler) : scaler :=
  if !s.auto_rps_target_hit then { s with auto_rps_target_hit := true, rps_stats := stats_zero }
  else s

/-- The assignment `requests_per_sec = target`, a conversion from `float` to
`int`; `none` when the value does not fit an `int`. -/
def store_rate (s : scaler) (target : Frac) : Option scaler :=
  if Frac.floor target < 2 ^ 31 then some { s with requests_per_sec := Frac.floor target }
  else none

/-- The function `auto_scale_rps` after `read_busy` has returned `busy`, for
non-negative `busy`, `auto_rps` and `requests_per_sec`; `first_run` is the flag
set when `/proc/stat` had to be opened.  All arithmetic is `float`; comparisons
with the literals `1.2`, `1.05`, `1.5`, `.9`, `.95`, `.8` and `0.3` are made in
`double`.  A `busy` of zero makes the quotient `+∞`, which is `> 3`. -/
def auto_scale_rps (s : scaler) (first_run : Bool) (busy : Frac) : Option scaler :=
  if first_run then some s
  else
    let goal := fl32 (Frac.ofNat s.auto_rps)
    let rate := fl32 (Frac.ofNat s.requests_per_sec)
    if Frac.lt busy goal then
      let delta := fl32 (Frac.div goal busy)
      let scaled : Frac × scaler :=
        if busy.num = 0 ∨ Frac.lt ⟨3, 1⟩ delta then (⟨3, 1⟩, s)
        else if Frac.lt delta (fl64 ⟨12, 10⟩) then
          let d := fl32 (Frac.add ⟨1, 1⟩ (fl32 (Frac.div (fl32 (Frac.sub delta ⟨1, 1⟩)) ⟨8, 1⟩)))
          (d, if Frac.lt d (fl64 ⟨105, 100⟩) then mark_target_hit s else s)
        else if Frac.lt delta (fl64 ⟨15, 10⟩) then
          (fl32 (Frac.add ⟨1, 1⟩ (fl32 (Frac.div (fl32 (Frac.sub delta ⟨1, 1⟩)) ⟨4, 1⟩))), s)
        else (delta, s)
      let target := Frac.ofNat (Frac.ceil (fl32 (Frac.mul rate scaled.1)))
      store_rate scaled.2 (if Frac.le ⟨2 ^ 31, 1⟩ target then rate else target)
    else if Frac.lt goal busy then
      let delta := fl32 (Frac.div goal busy)
      let scaled : Frac × scaler :=
        if Frac.lt delta (fl64 ⟨3, 10⟩) then (fl32 (fl64 ⟨3, 10⟩), s)
        else if Frac.lt (fl64 ⟨9, 10⟩) delta then
          let d := fl32 (Frac.add delta (fl32 (Frac.div (fl32 (Frac.sub ⟨1, 1⟩ delta)) ⟨8, 1⟩)))
          (d, if Frac.lt (fl64 ⟨95, 100⟩) d then mark_target_hit s else s)
        else if Frac.lt (fl64 ⟨8, 10⟩) delta then
          (fl32 (Frac.add delta (fl32 (Frac.div (fl32 (Frac.sub ⟨1, 1⟩ delta)) ⟨4, 1⟩))), s)
        else (delta, s)
      let target := Frac.ofNat (Frac.floor (fl32 (Frac.mul rate scaled.1)))
      store_rate scaled.2 (if target.num = 0 then ⟨0, 1⟩ else target)
    else store_rate (mark_target_hit s) rate

/-- The growth rule in the words of the specification, in exact arithmetic:
`delta = target / busy`, damped or clamped to `d`, new rate `ceil(R * d)`
unless that is `2 ^ 31` or more. -/
def scale_up_exact (R target : Nat) (busy : Frac) : Nat :=
  let delta := Frac.div (Frac.ofNat target) busy
  let d : Frac :=
    if Frac.lt ⟨3, 1⟩ delta then ⟨3, 1⟩
    else if Frac.lt delta ⟨12, 10⟩ then Frac.add ⟨1, 1⟩ (Frac.div (Frac.sub delta ⟨1, 1⟩) ⟨8, 1⟩)
    else if Frac.lt delta ⟨15, 10⟩ then Frac.add ⟨1, 1⟩ (Frac.div (Frac.sub delta ⟨1, 1⟩) ⟨4, 1⟩)
    else delta
  if 2 ^ 31 ≤ Frac.ceil (Frac.mul (Frac.ofNat R) d) then R
  else Frac.ceil (Frac.mul (Frac.ofNat R) d)

/-- The growth rule in the words of the specification with every operation
rounded to single precision: `delta = fl(fl(target) / busy)`, damped or clamped
to `d`, new rate `ceil(fl(fl(R) * d))` unless that is `2 ^ 31` or more, in which
case the rate is `fl(R)` converted back to `int`. -/
def scale_up_single (R target : Nat) (busy : Frac) : Option Nat :=
  let delta := fl32 (Frac.div (fl32 (Frac.ofNat target)) busy)
  let d : Frac :=
    if Frac.lt ⟨3, 1⟩ delta then ⟨3, 1⟩
    else if Frac.lt delta (fl64 ⟨12, 10⟩) then
      fl32 (Frac.add ⟨1, 1⟩ (fl32 (Frac.div (fl32 (Frac.sub delta ⟨1, 1⟩)) ⟨8, 1⟩)))
    else if Frac.lt delta (fl64 ⟨15, 10⟩) then
      fl32 (Frac.add ⟨1, 1⟩ (fl32 (Frac.div (fl32 (Frac.sub delta ⟨1, 1⟩)) ⟨4, 1⟩)))
    else delta
  if 2 ^ 31 ≤ Frac.ceil (fl32 (Frac.mul (fl32 (Frac.ofNat R)) d)) then
    if Frac.floor (fl32 (Frac.ofNat R)) < 2 ^ 31 then some (Frac.floor (fl32 (Frac.ofNat R)))
    else none
  else some (Frac.ceil (fl32 (Frac.mul (fl32 (Frac.ofNat R)) d)))

/-! ### Command line -/

/-- The globals that `parse_options` writes. The `int` globals are `Int`, the
two `unsigned long` globals are `Nat`. -/
structure config where
  message_threads : Int
  worker_threads : Int
  runtime : Int
  warmuptime : Int
  intervaltime : Int
  zerotime : Int
  cache_footprint_kb : Nat
  operations : Nat
  auto_rps : Int
  pipe_test : Int
  requests_per_sec : Int
  calibrate_only : Int
  skip_locking : Int
deriving DecidableEq, Repr

/-- The static initial values of the globals. -/
def config_init : config :=
  { message_threads := 1, worker_threads := 0, runtime := 30, warmuptime := 0,
    intervaltime := 10, zerotime := 0, cache_footprint_kb := 256, operations := 5,
    auto_rps := 0, pipe_test := 0, requests_per_sec := 0, calibrate_only := 0,
    skip_locking := 0 }

def HELP_LONG_OPT : Nat := 1

def PIPE_TRANSFER_BUFFER : Int := 1 * 1024 * 1024

/-- The string `option_string` of short options handed to `getopt_long`. -/
def option_string : String := "p:m:t:Cr:R:w:i:z:A:n:F:L"

/-- The table `long_options`: name, whether an argument is required, and the
value `getopt_long` returns for it (the `flag` field is 0 in every row). -/
def long_options : List (String × Bool × Nat) :=
  [("pipe", true, 'p'.toNat),
   ("message-threads", true, 'm'.toNat),
   ("threads", true, 't'.toNat),
   ("runtime", true, 'r'.toNat),
   ("rps", true, 'R'.toNat),
   ("auto-rps", true, 'A'.toNat),
   ("cache_footprint", true, 'f'.toNat),
   ("calibrate", false, 'C'.toNat),
   ("no-locking", false, 'L'.toNat),
   ("operations", true, 'n'.toNat),
   ("warmuptime", true, 'w'.toNat),
   ("intervaltime", true, 'i'.toNat),
   ("zerotime", true, 'z'.toNat),
   ("help", false, HELP_LONG_OPT)]

/-- One option as it stands on the command line: `-c ARG` or `--name ARG`.
`optarg` is the number `atoi(optarg)` yields; it is ignored by options that
take no argument. -/
inductive cli_arg
  | short (c : Char) (optarg : Int)
  | long (name : String) (optarg : Int)
deriving DecidableEq, Repr

/-- The number `atoi(optarg)` of an option. -/
def cli_arg.optarg : cli_arg → Int
  | .short _ v => v
  | .long _ v => v

/-- The value `getopt_long(ac, av, option_string, long_options, …)` returns
for one option: a short option listed in `option_string` yields its own
character, a long option named in `long_options` yields the `val` of its row,
anything else yields the character `?`. Long names are matched in full. -/
def getopt_long : cli_arg → Nat
  | .short c _ => if c ≠ ':' ∧ c ∈ option_string.toList then c.toNat else '?'.toNat
  | .long name _ =>
    match long_options.find? (fun o => o.1 = name) with
    | some o => o.2.2
    | none => '?'.toNat

/-- The `switch (c)` of `parse_options`, on the globals and the local
`found_warmuptime`; `none` is the `exit(1)` of `print_usage`. -/
def parse_case (cfg : config) (found_warmuptime : Int) (c : Nat) (optarg : Int) :
    Option (config × Int) :=
  if c = 'C'.toNat then some ({ cfg with calibrate_only := 1 }, found_warmuptime)
  else if c = 'L'.toNat then some ({ cfg with skip_locking := 1 }, found_warmuptime)
  else if c = 'A'.toNat then
    some ({ cfg with auto_rps := optarg, warmuptime := 0,
                     requests_per_sec :=
                       if cfg.requests_per_sec = 0 then 10 else cfg.requests_per_sec },
          found_warmuptime)
  else if c = 'p'.toNat then
    some ({ cfg with pipe_test :=
                       if optarg > PIPE_TRANSFER_BUFFER then PIPE_TRANSFER_BUFFER else optarg,
                     warmuptime := 0 },
          found_warmuptime)
  else if c = 'w'.toNat then some (cfg, optarg)
  else if c = 'm'.toNat then some ({ cfg with message_threads := optarg }, found_warmuptime)
  else if c = 't'.toNat then some ({ cfg with worker_threads := optarg }, found_warmuptime)
  else if c = 'r'.toNat then some ({ cfg with runtime := optarg }, found_warmuptime)
  else if c = 'i'.toNat then some ({ cfg with intervaltime := optarg }, found_warmuptime)
  else if c = 'z'.toNat then some ({ cfg with zerotime := optarg }, found_warmuptime)
  else if c = 'R'.toNat then some ({ cfg with requests_per_sec := optarg }, found_warmuptime)
  else if c = 'n'.toNat then some ({ cfg with operations := to_ull optarg }, found_warmuptime)
  else if c = 'F'.toNat then
    some ({ cfg with cache_footprint_kb := to_ull optarg }, found_warmuptime)
  else if c = '?'.toNat ∨ c = HELP_LONG_OPT then none
  else some (cfg, found_warmuptime)

/-- The `while (1)` loop of `parse_options` over the options of the command
line, in order. -/
def parse_loop : List cli_arg → config → Int → Option (config × Int)
  | [], cfg, found_warmuptime => some (cfg, found_warmuptime)
  | a :: rest, cfg, found_warmuptime =>
    match parse_case cfg found_warmuptime (getopt_long a) a.optarg with
    | none => none
    | some r => parse_loop rest r.1 r.2

/-- The statements of `parse_options` after the loop. `extra` says whether
arguments are left over (`optind < ac`), which ends in `exit(1)`. -/
def parse_finish (cfg : config) (found_warmuptime : Int) (extra : Bool) : Option config :=
  let c1 := if found_warmuptime ≥ 0 then { cfg with warmuptime := found_warmuptime } else cfg
  let c2 := if c1.calibrate_only ≠ 0 then { c1 with skip_locking := 1 } else c1
  let c3 := if c2.runtime < 30 then { c2 with warmuptime := 0 } else c2
  if extra then none else some c3

/-- The function `parse_options`, started on the initial globals with
`found_warmuptime = -1`; `none` is `exit(1)`. -/
def parse_options (av : List cli_arg) (extra : Bool) : Option config :=
  match parse_loop av config_init (-1) with
  | none => none
  | some r => parse_finish r.1 r.2 extra

/-- The value of the last `-w` on the command line, or `-1` when there is
none: what the local `found_warmuptime` holds after the loop. -/
def last_warmuptime : List cli_arg → Int → Int
  | [], w => w
  | a :: rest, w => last_warmuptime rest (if getopt_long a = 'w'.toNat then a.optarg else w)

/-! ### Choice of the mode -/

/-- The statement `requests_per_sec /= message_threads;` of `main`: division of
two `int`s, truncated towards zero; `none` when the divisor is zero. -/
def main_requests_per_sec (requests_per_sec message_threads : Int) : Option Int :=
  if message_threads = 0 then none else some (Int.tdiv requests_per_sec message_threads)

/-- The two loops a message thread can run. -/
inductive message_loop
  | run_rps_thread
  | run_msg_thread
deriving DecidableEq, Repr

/-- The statement `if (requests_per_sec) run_rps_thread(worker_threads_mem);
else run_msg_thread(td);` of `message_thread`. -/
def message_thread_loop (requests_per_sec : Int) : message_loop :=
  if requests_per_sec ≠ 0 then .run_rps_thread else .run_msg_thread

/-- The two branches of `msg_and_wait`: taking requests with
`request_splice`, or queueing the worker with `xlist_add`. -/
inductive wait_branch
  | request_splice
  | xlist_add
deriving DecidableEq, Repr

/-- The test `if (requests_per_sec) { … request_splice … } else {
xlist_add(td->msg_thread, td); }` of `msg_and_wait`. -/
def msg_and_wait_branch (requests_per_sec : Int) : wait_branch :=
  if requests_per_sec ≠ 0 then .request_splice else .xlist_add

/-! ### The futex gate -/

def FUTEX_BLOCKED : Int := 0

def FUTEX_RUNNING : Int := 1

def EAGAIN : Int := 11

def ETIMEDOUT : Int := 110

/-- The word a gate lives in, with a count of the `FUTEX_WAKE_PRIVATE` and of
the `FUTEX_WAIT_PRIVATE` system calls issued on it so far. -/
structure gate where
  futex : Int
  wakes : Nat
  parks : Nat
deriving DecidableEq, Repr

/-- The builtin `__sync_bool_compare_and_swap(p, oldval, newval)` on the value
`cur` of `*p`: the new value of `*p` and whether the swap was made. -/
def sync_bool_compare_and_swap (cur oldval newval : Int) : Int × Bool :=
  if cur = oldval then (newval, true) else (cur, false)

/-- The function `fpost(futexp)`. `s` is what the `FUTEX_WAKE_PRIVATE` call
returns if it is issued; `none` is the `exit(1)` after a failed call. -/
def fpost (g : gate) (s : Int) : Option gate :=
  let r := sync_bool_compare_and_swap g.futex FUTEX_BLOCKED FUTEX_RUNNING
  if r.2 then
    if s = -1 then none else some { g with futex := r.1, wakes := g.wakes + 1 }
  else some { g with futex := r.1 }

/-- What one `FUTEX_WAIT_PRIVATE` call brings back: its return value, `errno`,
and the value other threads have left in the word by the time it returns. -/
structure park where
  s : Int
  errno : Int
  futex : Int
deriving DecidableEq, Repr

/-- The function `fwait(futexp, timeout)`: the final gate and the value
returned. `env` holds the outcomes of the successive `FUTEX_WAIT_PRIVATE`
calls; `none` is `exit(1)`, or a waiter still parked when `env` or the
iteration budget is used up. -/
def fwait : Nat → gate → List park → Option (gate × Int)
  | 0, _, _ => none
  | fuel + 1, g, env =>
    let r := sync_bool_compare_and_swap g.futex FUTEX_RUNNING FUTEX_BLOCKED
    if r.2 then some ({ g with futex := r.1 }, 0)
    else
      match env with
      | [] => none
      | p :: rest =>
        let g1 : gate := { g with futex := p.futex, parks := g.parks + 1 }
        if p.s = -1 ∧ p.errno ≠ EAGAIN then
          if p.errno = ETIMEDOUT then some (g1, -ETIMEDOUT) else none
        else fwait fuel g1 rest

/-! ### The per-CPU locks -/

/-- Sum of two `int`s, wrapped to 32 bits two's complement. -/
def int_add (a b : Int) : Int := Int.bmod (a + b) (2 ^ 32)

/-- The inner loop `for (i = 0; i < worker_threads; i++) { worker =
thread_data + index++; … }`: the slots visited, in order, and the final
`index`. The argument counts the iterations left. -/
def walk_workers : Nat → Int → List Int × Int
  | 0, index => ([], index)
  | n + 1, index =>
    let r := walk_workers n (int_add index 1)
    (index :: r.1, r.2)

/-- The outer loop `for (msg_i = 0; msg_i < message_threads; msg_i++) {
index++; … }` around `walk_workers`: the slots visited, in order. The first
argument counts the iterations left. -/
def walk_message_threads : Nat → Nat → Int → List Int
  | 0, _, _ => []
  | n + 1, worker_threads, index =>
    let r := walk_workers worker_threads (int_add index 1)
    r.1 ++ walk_message_threads n worker_threads r.2

/-- The slots `thread_data + index` that `combine_message_thread_rps` reads,
in order, starting from `int index = 0`. -/
def combine_message_thread_rps_slots (message_threads worker_threads : Nat) : List Int :=
  walk_message_threads message_threads worker_threads 0

/-- The slots that `combine_message_thread_stats` reads: the same loop nest. -/
def combine_message_thread_stats_slots (message_threads worker_threads : Nat) : List Int :=
  walk_message_threads message_threads worker_threads 0

/-- The slots that `reset_thread_stats` clears: the same loop nest. -/
def reset_thread_stats_slots (message_threads worker_threads : Nat) : List Int :=
  walk_message_threads message_threads worker_threads 0

/-- The number of elements `main` asks `calloc` for:
`message_threads * worker_threads + message_threads`, in `int`. -/
def main_slot_count (message_threads worker_threads : Int) : Int :=
  int_add (int_mul message_threads worker_threads) message_threads

/-- The slot `int index = i * worker_threads + i` that `main` gives message
thread `i`. -/
def main_slot (i worker_threads : Int) : Int :=
  int_add (int_mul i worker_threads) i

/-- The slots `worker_threads_mem + i`, `i < worker_threads`, with
`worker_threads_mem = td + 1`, on which `message_thread` starts its workers;
`td` is the slot of the message thread. -/
def message_thread_workers (td : Int) (worker_threads : Nat) : List Int :=
  (List.range worker_threads).map (fun (i : Nat) => td + 1 + (i : Int))

/-! ### The pause of the injector -/

/-- The statement `sleep_time = (USEC_PER_SEC / requests_per_sec) * batch;` of
`run_rps_thread`, with `batch = 8`; `none` is the division by zero. -/
def run_rps_thread_sleep_time (requests_per_sec : Nat) : Option Nat :=
  if requests_per_sec = 0 then none
  else some (to_ull (int_mul ((USEC_PER_SEC : Int) / (requests_per_sec : Int)) 8))

/-- The slots of the workers in the words of the specification:
`i * (W + 1) + 1 + j` for `i < M` and `j < W`, listed by `i`, then by `j`. -/
def worker_slots (M W : Nat) : List Nat :=
  (List.range M).flatMap (fun i => (List.range W).map (fun j => i * (W + 1) + 1 + j))
/-! ## Theorems -/

/-! ### Rounding -/

theorem bitlenAux_spec : ∀ fuel n, n ≤ fuel → n ≠ 0 →
    2 ^ bitlenAux fuel n ≤ 2 * n ∧ n < 2 ^ bitlenAux fuel n := by
  intro fuel
  induction fuel with
  | zero => intro n h h0; omega
  | succ f ih =>
    intro n h h0
    simp only [bitlenAux, h0, if_false]
    by_cases h1 : n / 2 = 0
    · have hn : n = 1 := by omega
      subst hn
      cases f <;> simp [bitlenAux]
    · have := ih (n / 2) (by omega) h1
      rw [pow_succ]
      omega

theorem bitlen_spec (n : Nat) (h0 : n ≠ 0) :
    2 ^ bitlen n ≤ 2 * n ∧ n < 2 ^ bitlen n :=
  bitlenAux_spec n n le_rfl h0

theorem rhe_exact (k b : Nat) (hb : 0 < b) : rhe (k * b) b = k := by
  simp [rhe, Nat.mul_mod_left, hb, Nat.mul_div_cancel _ hb]

theorem rhe_mono_num (a a' b : Nat) (hb : 0 < b) (h : a ≤ a') : rhe a b ≤ rhe a' b := by
  have h1 := Nat.div_add_mod a b
  have h2 := Nat.div_add_mod a' b
  have h3 := Nat.mod_lt a hb
  have h4 := Nat.mod_lt a' hb
  have h5 : a / b ≤ a' / b := Nat.div_le_div_right h
  unfold rhe
  rcases Nat.eq_or_lt_of_le h5 with h6 | h6
  · rw [← h6] at h2 ⊢
    have : a % b ≤ a' % b := by omega
    split_ifs <;> omega
  · split_ifs <;> omega

theorem rhe_mul_left (c a b : Nat) (hc : 0 < c) : rhe (c * a) (c * b) = rhe a b := by
  unfold rhe
  rw [Nat.mul_div_mul_left _ _ hc, Nat.mul_mod_mul_left]
  have e1 : (2 * (c * (a % b)) < c * b) ↔ (2 * (a % b) < b) := by
    rw [show 2 * (c * (a % b)) = c * (2 * (a % b)) by ring]
    exact Nat.mul_lt_mul_left hc
  have e2 : (c * b < 2 * (c * (a % b))) ↔ (b < 2 * (a % b)) := by
    rw [show 2 * (c * (a % b)) = c * (2 * (a % b)) by ring]
    exact Nat.mul_lt_mul_left hc
  simp only [e1, e2]

theorem rhe_mono (a b a' b' : Nat) (hb : 0 < b) (hb' : 0 < b') (h : a * b' ≤ a' * b) :
    rhe a b ≤ rhe a' b' := by
  rw [← rhe_mul_left b' a b hb', ← rhe_mul_left b a' b' hb, Nat.mul_comm b' b]
  apply rhe_mono_num _ _ _ (Nat.mul_pos hb hb')
  rw [Nat.mul_comm b' a, Nat.mul_comm b a']
  exact h

namespace Frac

theorem toQ_nonneg (x : Frac) : 0 ≤ x.toQ := by
  unfold toQ; positivity

theorem toQ_scale2 (k dn up : Nat) :
    (scale2 k dn up).toQ = (k : ℚ) * 2 ^ dn / 2 ^ up := by
  unfold scale2 toQ
  split_ifs with h
  · obtain ⟨c, rfl⟩ := Nat.exists_eq_add_of_le h
    simp only [Nat.add_sub_cancel_left]
    push_cast
    field_simp
    ring
  · push_neg at h
    obtain ⟨c, rfl⟩ := Nat.exists_eq_add_of_le h.le
    simp only [Nat.add_sub_cancel_left]
    push_cast
    field_simp
    ring

theorem scale2_den_pos (k dn up : Nat) : 0 < (scale2 k dn up).den := by
  unfold scale2
  split_ifs <;> simp

theorem le_iff (x y : Frac) (hx : 0 < x.den) (hy : 0 < y.den) :
    Frac.le x y ↔ x.toQ ≤ y.toQ := by
  unfold Frac.le toQ
  rw [div_le_div_iff₀ (by exact_mod_cast hx) (by exact_mod_cast hy)]
  exact_mod_cast Iff.rfl

theorem lt_iff (x y : Frac) (hx : 0 < x.den) (hy : 0 < y.den) :
    Frac.lt x y ↔ x.toQ < y.toQ := by
  unfold Frac.lt toQ
  rw [div_lt_div_iff₀ (by exact_mod_cast hx) (by exact_mod_cast hy)]
  exact_mod_cast Iff.rfl

end Frac

theorem fl_den_pos (p : Nat) (x : Frac) : 0 < (fl p x).den := by
  unfold fl
  split_ifs
  · simp
  · exact Frac.scale2_den_pos _ _ _
  · exact Frac.scale2_den_pos _ _ _

theorem fl_zero (p : Nat) (x : Frac) (h : x.num = 0) : (fl p x).toQ = 0 := by
  simp [fl, h, Frac.toQ]

theorem fl_spec (p : Nat) (x : Frac) (hn : x.num ≠ 0) (hd : x.den ≠ 0) :
    ∃ (e : ℤ) (A B : Nat), 0 < B ∧ (A : ℚ) / B = x.toQ * 2 ^ e ∧
      2 ^ p * B ≤ 2 * A ∧ A < 2 ^ p * B ∧ (fl p x).toQ = (rhe A B : ℚ) / 2 ^ e := by
  obtain ⟨n1, n2⟩ := bitlen_spec x.num hn
  obtain ⟨d1, d2⟩ := bitlen_spec x.den hd
  have hnq : (0 : ℚ) < x.num := by exact_mod_cast Nat.pos_of_ne_zero hn
  have hdq : (0 : ℚ) < x.den := by exact_mod_cast Nat.pos_of_ne_zero hd
  have hdpos : 0 < x.den := Nat.pos_of_ne_zero hd
  by_cases hc : 2 ^ p * (x.den * 2 ^ bitlen x.num) ≤ x.num * 2 ^ (p + bitlen x.den)
  · refine ⟨(p + bitlen x.den : ℕ) - (bitlen x.num + 1 : ℕ), x.num * 2 ^ (p + bitlen x.den),
      2 * (x.den * 2 ^ bitlen x.num), by positivity, ?_, ?_, ?_, ?_⟩
    · rw [zpow_sub₀ (by norm_num), zpow_natCast, zpow_natCast]
      unfold Frac.toQ
      push_cast
      field_simp
      ring
    · calc 2 ^ p * (2 * (x.den * 2 ^ bitlen x.num))
          = 2 * (2 ^ p * (x.den * 2 ^ bitlen x.num)) := by ring
        _ ≤ 2 * (x.num * 2 ^ (p + bitlen x.den)) := Nat.mul_le_mul_left _ hc
    · rw [pow_add]
      calc x.num * (2 ^ p * 2 ^ bitlen x.den)
          = (2 ^ p * 2 ^ bitlen x.den) * x.num := by ring
        _ < (2 ^ p * 2 ^ bitlen x.den) * 2 ^ bitlen x.num :=
            Nat.mul_lt_mul_of_pos_left n2 (by positivity)
        _ = 2 ^ p * 2 ^ bitlen x.num * 2 ^ bitlen x.den := by ring
        _ ≤ 2 ^ p * 2 ^ bitlen x.num * (2 * x.den) := Nat.mul_le_mul_left _ d1
        _ = 2 ^ p * (2 * (x.den * 2 ^ bitlen x.num)) := by ring
    · simp only [fl, hn, if_false, hc, if_true]
      rw [Frac.toQ_scale2, zpow_sub₀ (by norm_num), zpow_natCast, zpow_natCast]
      field_simp
  · refine ⟨(p + bitlen x.den : ℕ) - (bitlen x.num : ℕ), x.num * 2 ^ (p + bitlen x.den),
      x.den * 2 ^ bitlen x.num, by positivity, ?_, ?_, ?_, ?_⟩
    · rw [zpow_sub₀ (by norm_num), zpow_natCast, zpow_natCast]
      unfold Frac.toQ
      push_cast
      field_simp
    · rw [pow_add]
      calc 2 ^ p * (x.den * 2 ^ bitlen x.num)
          = 2 ^ p * x.den * 2 ^ bitlen x.num := by ring
        _ ≤ 2 ^ p * x.den * (2 * x.num) := Nat.mul_le_mul_left _ n1
        _ = 2 * x.num * 2 ^ p * x.den := by ring
        _ ≤ 2 * x.num * 2 ^ p * 2 ^ bitlen x.den := Nat.mul_le_mul_left _ d2.le
        _ = 2 * (x.num * (2 ^ p * 2 ^ bitlen x.den)) := by ring
    · omega
    · simp only [fl, hn, if_false, hc]
      rw [Frac.toQ_scale2, zpow_sub₀ (by norm_num), zpow_natCast, zpow_natCast]
      field_simp

theorem rhe_le_of_le (A B k : Nat) (hB : 0 < B) (h : A ≤ k * B) : rhe A B ≤ k := by
  have := rhe_mono_num A (k * B) B hB h
  rwa [rhe_exact k B hB] at this

theorem le_rhe_of_le (A B k : Nat) (hB : 0 < B) (h : k * B ≤ A) : k ≤ rhe A B := by
  have := rhe_mono_num (k * B) A B hB h
  rwa [rhe_exact k B hB] at this

theorem half_bound (q A B : Nat) (h : 2 ^ (1 + q) * B ≤ 2 * A) : 2 ^ q * B ≤ A := by
  have e : 2 ^ (1 + q) * B = 2 * (2 ^ q * B) := by ring
  rw [e] at h
  omega

theorem two_zpow_step (a b : ℤ) (h : a < b) : (2 : ℚ) * 2 ^ a ≤ 2 ^ b := by
  have h1 : (2 : ℚ) ^ (a + 1) ≤ 2 ^ b := zpow_le_zpow_right₀ (by norm_num) (by omega)
  rw [zpow_add_one₀ (by norm_num)] at h1
  linarith

theorem fl_mono (p : Nat) (hp : 1 ≤ p) (x y : Frac) (hx : x.den ≠ 0) (hy : y.den ≠ 0)
    (h : x.toQ ≤ y.toQ) : (fl p x).toQ ≤ (fl p y).toQ := by
  by_cases hxn : x.num = 0
  · rw [fl_zero p x hxn]; exact Frac.toQ_nonneg _
  have hxpos : 0 < x.toQ := by
    have h1 : (0 : ℚ) < x.num := by exact_mod_cast Nat.pos_of_ne_zero hxn
    have h2 : (0 : ℚ) < x.den := by exact_mod_cast Nat.pos_of_ne_zero hx
    unfold Frac.toQ; positivity
  have hyn : y.num ≠ 0 := by
    intro h0
    have : y.toQ = 0 := by simp [Frac.toQ, h0]
    linarith
  obtain ⟨ex, A, B, hB, hAB, lo, hi, hfx⟩ := fl_spec p x hxn hx
  obtain ⟨ey, A', B', hB', hAB', lo', hi', hfy⟩ := fl_spec p y hyn hy
  obtain ⟨q, rfl⟩ := Nat.exists_eq_add_of_le hp
  rw [hfx, hfy]
  have hBq : (0 : ℚ) < B := by exact_mod_cast hB
  have hBq' : (0 : ℚ) < B' := by exact_mod_cast hB'
  have px : (0 : ℚ) < 2 ^ ex := zpow_pos (by norm_num) _
  have py : (0 : ℚ) < 2 ^ ey := zpow_pos (by norm_num) _
  have lo1 : 2 ^ q * B ≤ A := half_bound q A B lo
  have lo1' : 2 ^ q * B' ≤ A' := half_bound q A' B' lo'
  have kx : rhe A B ≤ 2 ^ (1 + q) := rhe_le_of_le A B _ hB hi.le
  have ky : 2 ^ q ≤ rhe A' B' := le_rhe_of_le A' B' _ hB' lo1'
  have kxq : (rhe A B : ℚ) ≤ 2 * 2 ^ q := by
    have : (rhe A B : ℚ) ≤ ((2 ^ (1 + q) : ℕ) : ℚ) := by exact_mod_cast kx
    rw [Nat.add_comm, pow_succ] at this
    push_cast at this
    linarith
  have kyq : (2 : ℚ) ^ q ≤ rhe A' B' := by exact_mod_cast ky
  rcases lt_trichotomy ex ey with hlt | heq | hgt
  · exfalso
    have s := two_zpow_step ex ey hlt
    have h1 : (2 : ℚ) ^ q ≤ x.toQ * 2 ^ ex := by
      rw [← hAB, le_div_iff₀ hBq]
      exact_mod_cast lo1
    have h2 : y.toQ * 2 ^ ey < 2 * 2 ^ q := by
      rw [← hAB', div_lt_iff₀ hBq']
      have : ((A' : ℕ) : ℚ) < ((2 ^ (1 + q) * B' : ℕ) : ℚ) := by exact_mod_cast hi'
      rw [Nat.add_comm, pow_succ] at this
      push_cast at this
      linarith
    have h3 : x.toQ * (2 * 2 ^ ex) ≤ y.toQ * 2 ^ ey :=
      mul_le_mul h s (by positivity) (Frac.toQ_nonneg _)
    nlinarith
  · subst heq
    have hr : rhe A B ≤ rhe A' B' := by
      apply rhe_mono A B A' B' hB hB'
      have h1 : (A : ℚ) / B ≤ (A' : ℚ) / B' := by
        rw [hAB, hAB']
        exact mul_le_mul_of_nonneg_right h px.le
      rw [div_le_div_iff₀ hBq hBq'] at h1
      exact_mod_cast h1
    have hrq : (rhe A B : ℚ) ≤ rhe A' B' := by exact_mod_cast hr
    exact div_le_div_of_nonneg_right hrq px.le
  · have s := two_zpow_step ey ex hgt
    rw [div_le_div_iff₀ px py]
    have hk0 : (0 : ℚ) ≤ rhe A B := by positivity
    calc (rhe A B : ℚ) * 2 ^ ey ≤ (2 * 2 ^ q) * 2 ^ ey :=
          mul_le_mul_of_nonneg_right kxq py.le
      _ = 2 ^ q * (2 * 2 ^ ey) := by ring
      _ ≤ rhe A' B' * 2 ^ ex := mul_le_mul kyq s (by positivity) (by positivity)

theorem fl_pos (p : Nat) (hp : 1 ≤ p) (x : Frac) (hn : x.num ≠ 0) (hd : x.den ≠ 0) :
    0 < (fl p x).toQ := by
  obtain ⟨e, A, B, hB, _, lo, _, hf⟩ := fl_spec p x hn hd
  obtain ⟨q, rfl⟩ := Nat.exists_eq_add_of_le hp
  have lo1 : 2 ^ q * B ≤ A := half_bound q A B lo
  have ky : 2 ^ q ≤ rhe A B := le_rhe_of_le A B _ hB lo1
  have : 0 < rhe A B := lt_of_lt_of_le (by positivity) ky
  rw [hf]
  have : (0 : ℚ) < rhe A B := by exact_mod_cast this
  have pe : (0 : ℚ) < 2 ^ e := zpow_pos (by norm_num) _
  positivity

/-- A value with at most `p` significant bits is not changed by rounding. -/
theorem fl_exact (p : Nat) (x : Frac) (hd : x.den ≠ 0) (m s : Nat) (hm : m < 2 ^ p)
    (hx : x.toQ = (m : ℚ) / 2 ^ s) : (fl p x).toQ = x.toQ := by
  by_cases hn : x.num = 0
  · rw [fl_zero p x hn]; simp [Frac.toQ, hn]
  obtain ⟨e, A, B, hB, hAB, lo, hi, hf⟩ := fl_spec p x hn hd
  have hBq : (0 : ℚ) < B := by exact_mod_cast hB
  have pe : (0 : ℚ) < 2 ^ e := zpow_pos (by norm_num) _
  have hmq : (m : ℚ) < 2 ^ p := by exact_mod_cast hm
  -- the scaled value is an integer
  have hes : (s : ℤ) ≤ e := by
    by_contra hlt
    push_neg at hlt
    have s1 := two_zpow_step e s hlt
    rw [zpow_natCast] at s1
    have h1 : (2 : ℚ) ^ p ≤ 2 * (x.toQ * 2 ^ e) := by
      rw [← hAB, ← mul_div_assoc, le_div_iff₀ hBq]
      exact_mod_cast lo
    rw [hx] at h1
    have h2 : (m : ℚ) / 2 ^ s * (2 * 2 ^ e) ≤ (m : ℚ) / 2 ^ s * 2 ^ s :=
      mul_le_mul_of_nonneg_left s1 (by positivity)
    have h3 : (m : ℚ) / 2 ^ s * 2 ^ s = m := by field_simp
    nlinarith
  obtain ⟨c, hc⟩ := Int.eq_ofNat_of_zero_le (sub_nonneg.mpr hes)
  have he : e = (s : ℤ) + c := by omega
  have hA : (A : ℚ) = ((m * 2 ^ c * B : ℕ) : ℚ) := by
    have := hAB
    rw [hx, he, zpow_add₀ (by norm_num), zpow_natCast, zpow_natCast, div_eq_iff hBq.ne'] at this
    rw [this]
    push_cast
    field_simp
    ring
  have hA' : A = m * 2 ^ c * B := by exact_mod_cast hA
  rw [hf, hA', rhe_exact _ _ hB, hx, he, zpow_add₀ (by norm_num), zpow_natCast, zpow_natCast]
  push_cast
  field_simp
  ring

namespace Frac
theorem toQ_add (x y : Frac) (hx : x.den ≠ 0) (hy : y.den ≠ 0) :
    (add x y).toQ = x.toQ + y.toQ := by
  have h1 : (x.den : ℚ) ≠ 0 := by exact_mod_cast hx
  have h2 : (y.den : ℚ) ≠ 0 := by exact_mod_cast hy
  unfold add toQ
  push_cast
  field_simp

theorem toQ_mul (x y : Frac) : (mul x y).toQ = x.toQ * y.toQ := by
  unfold mul toQ
  push_cast
  rw [mul_div_mul_comm]

theorem toQ_ofNat (n : Nat) : (ofNat n).toQ = n := by
  simp [ofNat, toQ]

theorem floor_eq (x : Frac) (hd : x.den ≠ 0) (v : Nat) (h : x.toQ = v) : x.floor = v := by
  have h1 : (x.den : ℚ) ≠ 0 := by exact_mod_cast hd
  unfold toQ at h
  rw [div_eq_iff h1] at h
  have h2 : x.num = v * x.den := by exact_mod_cast h
  unfold floor
  rw [h2, Nat.mul_div_cancel _ (Nat.pos_of_ne_zero hd)]
end Frac

theorem fl64_den_ne (x : Frac) : (fl64 x).den ≠ 0 := (fl_den_pos 53 x).ne'

theorem fl64_nat (n : Nat) (h : n < 2 ^ 53) : (fl64 (Frac.ofNat n)).toQ = n := by
  have := fl_exact 53 (Frac.ofNat n) (by simp [Frac.ofNat]) n 0 h (by simp [Frac.toQ_ofNat])
  rw [fl64, this, Frac.toQ_ofNat]

theorem Frac.add_den_ne (x y : Frac) (hx : x.den ≠ 0) (hy : y.den ≠ 0) : (Frac.add x y).den ≠ 0 :=
  Nat.mul_ne_zero hx hy

theorem Frac.mul_den_ne (x y : Frac) (hx : x.den ≠ 0) (hy : y.den ≠ 0) : (Frac.mul x y).den ≠ 0 :=
  Nat.mul_ne_zero hx hy
theorem PLAT_BITS_eq : PLAT_BITS = 8 := rfl
theorem PLAT_VAL_eq : PLAT_VAL = 256 := by decide
theorem PLAT_NR_eq : PLAT_NR = 4864 := by decide
theorem UINT_eq : UINT = 4294967296 := by decide

/-- Closed form of the bucket value above the linear range: the double
arithmetic of the source is exact there. -/
theorem plat_idx_to_val_large (idx : Nat) (h1 : 512 ≤ idx) (h2 : idx < 4864) :
    plat_idx_to_val idx
      = some (2 ^ (idx / 256 + 7) + (2 * (idx % 256) + 1) * 2 ^ (idx / 256 - 2)) := by
  obtain ⟨e, he⟩ : ∃ e, idx / 256 = e + 2 := ⟨idx / 256 - 2, by omega⟩
  have he17 : e ≤ 16 := by omega
  have hk : idx % 256 < 256 := Nat.mod_lt _ (by norm_num)
  have hp : 2 ^ e ≤ 65536 := by
    have := Nat.pow_le_pow_right (n := 2) (by norm_num) he17
    norm_num at this
    exact this
  have hp0 : 0 < 2 ^ e := by positivity
  set k := idx % 256 with hkdef
  -- the four double operations
  have c1 : (fl64 (Frac.ofNat k)).toQ = k := fl64_nat k (by omega)
  have c2 : (fl64 (Frac.add (fl64 (Frac.ofNat k)) ⟨1, 2⟩)).toQ = ((2 * k + 1 : ℕ) : ℚ) / 2 ^ 1 := by
    have hx : (Frac.add (fl64 (Frac.ofNat k)) ⟨1, 2⟩).toQ = ((2 * k + 1 : ℕ) : ℚ) / 2 ^ 1 := by
      rw [Frac.toQ_add _ _ (fl64_den_ne _) (by norm_num), c1]
      simp [Frac.toQ]
      field_simp
      ring
    rw [fl64, fl_exact 53 _ (Frac.add_den_ne _ _ (fl64_den_ne _) (by norm_num)) (2 * k + 1) 1 (by omega) hx, hx]
  have c3 : (fl64 (Frac.ofNat (2 * 2 ^ e))).toQ = ((2 * 2 ^ e : ℕ) : ℚ) :=
    fl64_nat _ (by omega)
  have c4 : (fl64 (Frac.mul (fl64 (Frac.add (fl64 (Frac.ofNat k)) ⟨1, 2⟩))
      (fl64 (Frac.ofNat (2 * 2 ^ e))))).toQ = (((2 * k + 1) * 2 ^ e : ℕ) : ℚ) := by
    have hx : (Frac.mul (fl64 (Frac.add (fl64 (Frac.ofNat k)) ⟨1, 2⟩))
        (fl64 (Frac.ofNat (2 * 2 ^ e)))).toQ = (((2 * k + 1) * 2 ^ e : ℕ) : ℚ) / 2 ^ 0 := by
      rw [Frac.toQ_mul, c2, c3]
      push_cast
      field_simp
      ring
    have hb : (2 * k + 1) * 2 ^ e < 2 ^ 53 := by
      calc (2 * k + 1) * 2 ^ e ≤ 511 * 65536 := Nat.mul_le_mul (by omega) hp
        _ < 2 ^ 53 := by norm_num
    rw [fl64, fl_exact 53 _ (Frac.mul_den_ne _ _ (fl64_den_ne _) (fl64_den_ne _)) _ 0 hb hx, hx]
    simp
  have hbase : 2 ^ (e + 9) ≤ 2 ^ 25 := Nat.pow_le_pow_right (by norm_num) (by omega)
  have c5 : (fl64 (Frac.ofNat (2 ^ (e + 9)))).toQ = ((2 ^ (e + 9) : ℕ) : ℚ) :=
    fl64_nat _ (lt_of_le_of_lt hbase (by norm_num))
  have hsum : 2 ^ (e + 9) + (2 * k + 1) * 2 ^ e < 2 ^ 26 := by
    have : (2 * k + 1) * 2 ^ e ≤ 511 * 65536 := Nat.mul_le_mul (by omega) hp
    have : (2 : ℕ) ^ 25 = 33554432 := by norm_num
    have : (2 : ℕ) ^ 26 = 67108864 := by norm_num
    omega
  have c6 : (fl64 (Frac.add (fl64 (Frac.ofNat (2 ^ (e + 9))))
      (fl64 (Frac.mul (fl64 (Frac.add (fl64 (Frac.ofNat k)) ⟨1, 2⟩))
        (fl64 (Frac.ofNat (2 * 2 ^ e))))))).toQ
        = ((2 ^ (e + 9) + (2 * k + 1) * 2 ^ e : ℕ) : ℚ) := by
    have hx : (Frac.add (fl64 (Frac.ofNat (2 ^ (e + 9))))
      (fl64 (Frac.mul (fl64 (Frac.add (fl64 (Frac.ofNat k)) ⟨1, 2⟩))
        (fl64 (Frac.ofNat (2 * 2 ^ e)))))).toQ
        = ((2 ^ (e + 9) + (2 * k + 1) * 2 ^ e : ℕ) : ℚ) / 2 ^ 0 := by
      rw [Frac.toQ_add _ _ (fl64_den_ne _) (fl64_den_ne _), c4, c5]
      push_cast
      ring
    rw [fl64, fl_exact 53 _ (Frac.add_den_ne _ _ (fl64_den_ne _) (fl64_den_ne _)) _ 0
      (lt_trans hsum (by norm_num)) hx, hx]
    simp
  have hfloor := Frac.floor_eq _ (fl64_den_ne _) _ c6
  have hs1 : idx >>> 8 - 1 = e + 1 := by rw [Nat.shiftRight_eq_div_pow]; omega
  unfold plat_idx_to_val
  rw [if_neg (by rw [PLAT_NR_eq]; omega), if_neg (by rw [PLAT_VAL_eq]; simp; omega)]
  simp only [PLAT_BITS_eq, PLAT_VAL_eq, hs1, Nat.shiftLeft_eq, one_mul, UINT_eq]
  have hm : 2 ^ (e + 1 + 8) % 4294967296 = 2 ^ (e + 9) := by
    rw [show e + 1 + 8 = e + 9 by omega]
    apply Nat.mod_eq_of_lt
    have : (2 : ℕ) ^ 25 = 33554432 := by norm_num
    omega
  rw [hm, show (2 : ℕ) ^ (e + 1) = 2 * 2 ^ e by ring, ← hkdef, hfloor]
  rw [Nat.mod_eq_of_lt (by
    have : (2 : ℕ) ^ 26 = 67108864 := by norm_num
    omega)]
  rw [he]
  simp only [Nat.add_sub_cancel]
theorem bitlen_le_of_lt (v n : Nat) (h0 : v ≠ 0) (h : v < 2 ^ n) : bitlen v ≤ n := by
  obtain ⟨h1, _⟩ := bitlen_spec v h0
  by_contra hc
  push_neg at hc
  have : 2 ^ (n + 1) ≤ 2 ^ bitlen v := Nat.pow_le_pow_right (by norm_num) hc
  rw [pow_succ] at this
  omega

theorem lt_bitlen_of_le (v n : Nat) (h0 : v ≠ 0) (h : 2 ^ n ≤ v) : n < bitlen v := by
  obtain ⟨_, h2⟩ := bitlen_spec v h0
  by_contra hc
  push_neg at hc
  have : 2 ^ bitlen v ≤ 2 ^ n := Nat.pow_le_pow_right (by norm_num) hc
  omega

theorem plat_val_to_idx_small (v : Nat) (h : v < 512) : plat_val_to_idx v = v := by
  unfold plat_val_to_idx
  by_cases h0 : v = 0
  · subst h0; simp
  · have hb : bitlen v ≤ 9 := bitlen_le_of_lt v 9 h0 (by norm_num; exact h)
    simp only [h0, if_false, builtin_clz, PLAT_BITS_eq]
    rw [if_pos (by omega)]

theorem plat_val_to_idx_lt (v : Nat) (h : v < 2 ^ 32) : plat_val_to_idx v < PLAT_NR := by
  by_cases hs : v < 512
  · rw [plat_val_to_idx_small v hs, PLAT_NR_eq]; omega
  · unfold plat_val_to_idx
    simp only [PLAT_NR_eq]
    have h0 : v ≠ 0 := by omega
    have hb2 : 9 < bitlen v := lt_bitlen_of_le v 9 h0 (by norm_num; omega)
    have hb1 : bitlen v ≤ 32 := bitlen_le_of_lt v 32 h0 h
    simp only [h0, if_false, builtin_clz, PLAT_BITS_eq]
    rw [if_neg (by omega)]
    split_ifs <;> omega

theorem plat_val_to_idx_large (v : Nat) (h1 : 512 ≤ v) (h2 : v < 2 ^ 26) :
    ∃ e, e ≤ 16 ∧ 2 ^ (e + 9) ≤ v ∧ v < 2 ^ (e + 10) ∧
      plat_val_to_idx v = (e + 2) * 256 + (v / 2 ^ (e + 1)) % 256 := by
  have h0 : v ≠ 0 := by omega
  have hb1 : bitlen v ≤ 26 := bitlen_le_of_lt v 26 h0 h2
  have hb2 : 9 < bitlen v := lt_bitlen_of_le v 9 h0 (by norm_num; exact h1)
  obtain ⟨s1, s2⟩ := bitlen_spec v h0
  obtain ⟨e, he⟩ : ∃ e, bitlen v = e + 10 := ⟨bitlen v - 10, by omega⟩
  rw [he] at s1 s2
  refine ⟨e, by omega, ?_, s2, ?_⟩
  · rw [show e + 10 = (e + 9) + 1 by omega, pow_succ] at s1; omega
  · have hoff : (v / 2 ^ (e + 1)) % 256 < 256 := Nat.mod_lt _ (by norm_num)
    unfold plat_val_to_idx
    simp only [h0, if_false, builtin_clz, PLAT_BITS_eq, PLAT_VAL_eq, PLAT_NR_eq, UINT_eq, he]
    rw [if_neg (by omega)]
    have e1 : 4 * 8 - (32 - (e + 10)) - 1 - 8 = e + 1 := by omega
    simp only [e1, Nat.shiftLeft_eq, Nat.shiftRight_eq_div_pow]
    have e2 : (256 - 1) &&& (v / 2 ^ (e + 1)) = (v / 2 ^ (e + 1)) % 256 := by
      rw [Nat.land_comm]
      exact Nat.and_pow_two_sub_one_eq_mod _ 8
    rw [e2]
    have e3 : (e + 1 + 1) * 2 ^ 8 % 4294967296 = (e + 2) * 256 := by
      norm_num; omega
    rw [e3, Nat.mod_eq_of_lt (by omega)]
    split_ifs <;> omega
theorem plat_idx_to_val_small (idx : Nat) (h : idx < 512) : plat_idx_to_val idx = some idx := by
  unfold plat_idx_to_val
  rw [if_neg (by rw [PLAT_NR_eq]; omega), if_pos (by rw [PLAT_VAL_eq]; simpa using h)]

theorem plat_val_to_idx_top : plat_val_to_idx (2 ^ 27 - 1) = 4863 := by decide

/-- Nat form of the round trip bound for samples below `2 ^ 26`. -/
theorem roundtrip_nat (v : Nat) (h1 : 512 ≤ v) (h2 : v < 2 ^ 26) :
    ∃ r, plat_idx_to_val (plat_val_to_idx v) = some r ∧ 255 * v ≤ 256 * r ∧ 256 * r ≤ 257 * v := by
  obtain ⟨e, he, lo, hi, hidx⟩ := plat_val_to_idx_large v h1 h2
  have hoff : (v / 2 ^ (e + 1)) % 256 < 256 := Nat.mod_lt _ (by norm_num)
  have hP : 0 < 2 ^ e := by positivity
  have p1 : 2 ^ (e + 1) = 2 * 2 ^ e := by ring
  have p9 : 2 ^ (e + 9) = 512 * 2 ^ e := by ring
  have p10 : 2 ^ (e + 10) = 1024 * 2 ^ e := by ring
  rw [p9] at lo
  rw [p10] at hi
  have hq1 : 256 ≤ v / 2 ^ (e + 1) := by
    rw [Nat.le_div_iff_mul_le (by positivity), p1]; omega
  have hq2 : v / 2 ^ (e + 1) < 512 := by
    rw [Nat.div_lt_iff_lt_mul (by positivity), p1]; omega
  have hdm := Nat.div_add_mod v (2 ^ (e + 1))
  have hlow : v % 2 ^ (e + 1) < 2 ^ (e + 1) := Nat.mod_lt _ (by positivity)
  generalize hq : v / 2 ^ (e + 1) = q at *
  generalize hl : v % 2 ^ (e + 1) = low at *
  have hi1 : ((e + 2) * 256 + q % 256) / 256 = e + 2 := by omega
  have hi2 : ((e + 2) * 256 + q % 256) % 256 = q % 256 := by omega
  refine ⟨_, by rw [hidx]; exact plat_idx_to_val_large _ (by omega) (by omega), ?_⟩
  rw [hi1, hi2]
  simp only [Nat.add_sub_cancel]
  rw [show e + 2 + 7 = e + 9 by omega, p9]
  have hoffq : q % 256 = q - 256 := by omega
  rw [hoffq]
  have hr : (2 * (q - 256) + 1) * 2 ^ e + 512 * 2 ^ e = 2 * (2 ^ e * q) + 2 ^ e := by
    obtain ⟨c, hc⟩ : ∃ c, q = c + 256 := ⟨q - 256, by omega⟩
    rw [hc]
    simp only [Nat.add_sub_cancel]
    ring
  have hmul : 2 ^ (e + 1) * q = 2 * (2 ^ e * q) := by rw [p1]; ring
  have ht : 256 * 2 ^ e ≤ 2 ^ e * q := by
    rw [Nat.mul_comm]; exact Nat.mul_le_mul_left _ hq1
  constructor <;> omega

theorem plat_idx_top : plat_idx_to_val 4863 = some 67043328 := by
  rw [plat_idx_to_val_large 4863 (by norm_num) (by norm_num)]
  norm_num

/-- C1, as stated, is false: the sample `2 ^ 27 - 1` falls in the clamped last
bucket 4863, whose value 67043328 is neither within a factor `1 ± 2 ^ -8` of
the sample nor below 512. -/
theorem C1_roundtrip_fails_at_2_27 :
    ¬ ∀ v : Nat, v < 2 ^ 27 →
      ∃ r, plat_idx_to_val (plat_val_to_idx v) = some r ∧
        (((v : ℚ) * (1 - 1 / 2 ^ 8) ≤ r ∧ (r : ℚ) ≤ v * (1 + 1 / 2 ^ 8)) ∨ r < 2 ^ 9) := by
  intro h
  obtain ⟨r, hr, hb⟩ := h (2 ^ 27 - 1) (by norm_num)
  rw [plat_val_to_idx_top, plat_idx_top] at hr
  cases hr
  norm_num at hb

/-- C1 (amended): for every sample `v < 2 ^ 26` the value of the bucket of `v`
lies within `[v * (1 - 2 ^ -8), v * (1 + 2 ^ -8)]`, or is below `2 ^ 9`. -/
theorem C1_roundtrip_below_2_26 (v : Nat) (hv : v < 2 ^ 26) :
    ∃ r, plat_idx_to_val (plat_val_to_idx v) = some r ∧
      (((v : ℚ) * (1 - 1 / 2 ^ 8) ≤ r ∧ (r : ℚ) ≤ v * (1 + 1 / 2 ^ 8)) ∨ r < 2 ^ 9) := by
  by_cases hs : v < 512
  · refine ⟨v, ?_, Or.inr (by norm_num; exact hs)⟩
    rw [plat_val_to_idx_small v hs, plat_idx_to_val_small v hs]
  · obtain ⟨r, hr, b1, b2⟩ := roundtrip_nat v (by omega) hv
    refine ⟨r, hr, Or.inl ⟨?_, ?_⟩⟩
    · have : ((255 * v : ℕ) : ℚ) ≤ ((256 * r : ℕ) : ℚ) := by exact_mod_cast b1
      push_cast at this
      norm_num
      linarith
    · have : ((256 * r : ℕ) : ℚ) ≤ ((257 * v : ℕ) : ℚ) := by exact_mod_cast b2
      push_cast at this
      norm_num
      linarith

/-- C1 (amended), instance: the sample 100000. -/
theorem C1_roundtrip_below_2_26_witness :
    100000 < 2 ^ 26 ∧ ∃ r, plat_idx_to_val (plat_val_to_idx 100000) = some r ∧
      ((((100000 : ℕ) : ℚ) * (1 - 1 / 2 ^ 8) ≤ r ∧ (r : ℚ) ≤ ((100000 : ℕ) : ℚ) * (1 + 1 / 2 ^ 8))
        ∨ r < 2 ^ 9) :=
  ⟨by norm_num, C1_roundtrip_below_2_26 100000 (by norm_num)⟩
theorem fl64_den_pos (x : Frac) : 0 < (fl64 x).den := fl_den_pos 53 x

/-- The `double` value of `plist[j] / 100.0`. -/
theorem pct_threshold_eq (j nr : Nat) :
    pct_threshold j nr
      = fl64 (Frac.mul (fl64 (Frac.div (plist.getD j ⟨0, 1⟩) ⟨100, 1⟩)) (fl64 (Frac.ofNat nr))) :=
  rfl

set_option maxRecDepth 100000 in
theorem plist_len_eq : plist_len PLAT_LIST_MAX 0 = 5 := by decide

set_option maxRecDepth 100000 in
theorem pct_coeff_mono (j : Nat) (hj : j < 4) :
    (fl64 (Frac.div (plist.getD j ⟨0, 1⟩) ⟨100, 1⟩)).toQ
      ≤ (fl64 (Frac.div (plist.getD (j + 1) ⟨0, 1⟩) ⟨100, 1⟩)).toQ := by
  rw [← Frac.le_iff _ _ (fl64_den_pos _) (fl64_den_pos _)]
  interval_cases j <;> decide

set_option maxRecDepth 100000 in
theorem pct_coeff_le_one (j : Nat) (hj : j < 5) :
    (fl64 (Frac.div (plist.getD j ⟨0, 1⟩) ⟨100, 1⟩)).toQ ≤ 1 := by
  have h1 : (1 : ℚ) = (Frac.ofNat 1).toQ := by simp [Frac.toQ_ofNat]
  rw [h1, ← Frac.le_iff _ _ (fl64_den_pos _) (by decide)]
  interval_cases j <;> decide

set_option maxRecDepth 100000 in
theorem pct_coeff_pos (j : Nat) (hj : j < 5) :
    0 < (fl64 (Frac.div (plist.getD j ⟨0, 1⟩) ⟨100, 1⟩)).toQ := by
  have h1 : (0 : ℚ) = (Frac.ofNat 0).toQ := by simp [Frac.toQ_ofNat]
  rw [h1, ← Frac.lt_iff _ _ (by decide) (fl64_den_pos _)]
  interval_cases j <;> decide

theorem pct_threshold_mono (j nr : Nat) (hj : j < 4) :
    (pct_threshold j nr).toQ ≤ (pct_threshold (j + 1) nr).toQ := by
  rw [pct_threshold_eq, pct_threshold_eq]
  apply fl_mono 53 (by norm_num) _ _
    (Frac.mul_den_ne _ _ (fl64_den_ne _) (fl64_den_ne _))
    (Frac.mul_den_ne _ _ (fl64_den_ne _) (fl64_den_ne _))
  rw [Frac.toQ_mul, Frac.toQ_mul]
  exact mul_le_mul_of_nonneg_right (pct_coeff_mono j hj) (Frac.toQ_nonneg _)

theorem pct_reached_iff (j nr s : Nat) :
    pct_reached j nr s ↔ (pct_threshold j nr).toQ ≤ (fl64 (Frac.ofNat s)).toQ := by
  unfold pct_reached
  rw [Frac.le_iff _ _ (by rw [pct_threshold_eq]; exact fl64_den_pos _) (fl64_den_pos _)]

/-- A later percentile is reached only once every earlier one is. -/
theorem pct_reached_antitone (j nr s : Nat) (hj : j < 4) (h : pct_reached (j + 1) nr s) :
    pct_reached j nr s := by
  rw [pct_reached_iff] at h ⊢
  exact le_trans (pct_threshold_mono j nr hj) h

/-- The whole sample count reaches every percentile. -/
theorem pct_reached_total (j nr : Nat) (hj : j < 5) (hnr : nr < 2 ^ 53) :
    pct_reached j nr nr := by
  rw [pct_reached_iff, pct_threshold_eq]
  have hN : (fl64 (Frac.ofNat nr)).toQ = nr := fl64_nat nr hnr
  have hNN : (fl64 (fl64 (Frac.ofNat nr))).toQ = (fl64 (Frac.ofNat nr)).toQ :=
    fl_exact 53 _ (fl64_den_ne _) nr 0 hnr (by rw [hN]; simp)
  rw [← hNN]
  apply fl_mono 53 (by norm_num) _ _
    (Frac.mul_den_ne _ _ (fl64_den_ne _) (fl64_den_ne _)) (fl64_den_ne _)
  rw [Frac.toQ_mul]
  calc _ ≤ 1 * (fl64 (Frac.ofNat nr)).toQ :=
        mul_le_mul_of_nonneg_right (pct_coeff_le_one j hj) (Frac.toQ_nonneg _)
    _ = _ := one_mul _

theorem Frac.num_ne_of_pos (x : Frac) (h : 0 < x.toQ) : x.num ≠ 0 := by
  intro h0
  simp [Frac.toQ, h0] at h

/-- With at least one sample no percentile is reached by an empty prefix. -/
theorem pct_not_reached_zero (j nr : Nat) (hj : j < 5) (h1 : 1 ≤ nr) (hnr : nr < 2 ^ 53) :
    ¬ pct_reached j nr 0 := by
  rw [pct_reached_iff, pct_threshold_eq]
  have h0 : (fl64 (Frac.ofNat 0)).toQ = 0 := by
    have := fl64_nat 0 (by norm_num)
    simpa using this
  rw [h0, not_le]
  have hN : (fl64 (Frac.ofNat nr)).toQ = nr := fl64_nat nr hnr
  apply fl_pos 53 (by norm_num)
  · apply Frac.num_ne_of_pos
    rw [Frac.toQ_mul, hN]
    have : (0 : ℚ) < nr := by exact_mod_cast h1
    exact mul_pos (pct_coeff_pos j hj) this
  · exact Frac.mul_den_ne _ _ (fl64_den_ne _) (fl64_den_ne _)
theorem ULONG_eq : ULONG = 18446744073709551616 := by decide

theorem psum_mono (plat : Nat → Nat) (a b : Nat) (h : a ≤ b) : psum plat a ≤ psum plat b := by
  induction b with
  | zero => simp at h; subst h; exact le_rfl
  | succ n ih =>
    rcases Nat.eq_or_lt_of_le h with h1 | h1
    · rw [h1]
    · have := ih (by omega)
      simp only [psum]
      omega

theorem psum_le (plat : Nat → Nat) (n : Nat) (h : ∀ i < n, plat i < UINT) :
    psum plat n ≤ n * (UINT - 1) := by
  induction n with
  | zero => simp [psum]
  | succ n ih =>
    have h1 := ih (fun i hi => h i (by omega))
    have h2 := h n (by omega)
    simp only [psum, UINT_eq] at *
    omega

theorem psum_lt_2_53 (plat : Nat → Nat) (n : Nat) (hn : n ≤ PLAT_NR)
    (h : ∀ i < PLAT_NR, plat i < UINT) : psum plat n < 2 ^ 53 := by
  have h1 := psum_mono plat n PLAT_NR hn
  have h2 := psum_le plat PLAT_NR h
  rw [PLAT_NR_eq, UINT_eq] at h2
  rw [PLAT_NR_eq] at h1
  norm_num at h2 ⊢
  omega

theorem plat_idx_to_val_some (i : Nat) (h : i < PLAT_NR) : ∃ v, plat_idx_to_val i = some v := by
  rw [PLAT_NR_eq] at h
  by_cases h1 : i < 512
  · exact ⟨_, plat_idx_to_val_small i h1⟩
  · exact ⟨_, plat_idx_to_val_large i (by omega) h⟩

theorem recorded_snoc (plat : Nat → Nat) (nr i v : Nat) (ovals ocounts : List Nat)
    (hi : i < PLAT_NR) (hv : plat_idx_to_val i = some v)
    (hrec : recorded plat nr ovals ocounts)
    (hf : first_reached plat nr ovals.length i) :
    recorded plat nr (ovals ++ [v]) (ocounts ++ [cumsum plat i]) := by
  obtain ⟨hl, hr⟩ := hrec
  refine ⟨by simp [hl], ?_⟩
  intro j hj
  simp only [List.length_append, List.length_singleton] at hj
  rcases Nat.lt_or_ge j ovals.length with h1 | h1
  · obtain ⟨idx, a, b, c, d⟩ := hr j h1
    refine ⟨idx, a, b, ?_, ?_⟩
    · rw [List.getElem?_append_left h1]; exact c
    · rw [List.getElem?_append_left (by rw [← hl]; exact h1)]; exact d
  · have hje : j = ovals.length := by omega
    subst hje
    refine ⟨i, hi, hf, ?_, ?_⟩
    · rw [hv]; simp
    · rw [hl]; simp

theorem store_end (a : List Nat) (v : Nat) : store a a.length v = a ++ [v] := by
  simp [store]

theorem pct_inner_spec (plat : Nat → Nat) (nr i : Nat) (hi : i < PLAT_NR) :
    ∀ fuel (st : pstate), st.is_last = false → st.j = st.ovals.length → st.j < 5 →
      5 ≤ fuel + st.j → st.sum = cumsum plat i → recorded plat nr st.ovals st.ocounts →
      (∀ i' < i, ¬ pct_reached st.j nr (cumsum plat i')) →
      ∃ st', pct_inner fuel 5 nr i st = some st' ∧
        recorded plat nr st'.ovals st'.ocounts ∧
        (st'.is_last = true → st'.ovals.length = 5) ∧
        (st'.is_last = false → st'.sum = cumsum plat i ∧ st'.j = st'.ovals.length ∧ st'.j < 5 ∧
          ∀ i' < i + 1, ¬ pct_reached st'.j nr (cumsum plat i')) := by
  intro fuel
  induction fuel with
  | zero => intro st _ _ h1 h2; omega
  | succ f ih =>
    intro st hl hj hj5 hfuel hsum hrec hnot
    obtain ⟨v, hv⟩ := plat_idx_to_val_some i hi
    unfold pct_inner
    by_cases hR : pct_reached st.j nr st.sum
    · rw [if_pos hR, hv]
      have hlen : st.ovals.length = st.ocounts.length := hrec.1
      have hrec' : recorded plat nr (store st.ovals st.j v) (store st.ocounts st.j st.sum) := by
        rw [hj, store_end]
        have : st.ovals.length = st.ocounts.length := hlen
        rw [this, store_end, hsum]
        refine recorded_snoc plat nr i v _ _ hi hv hrec ⟨?_, ?_⟩
        · rw [← hj, ← hsum]; exact hR
        · rw [← hj]; exact hnot
      have hlen' : (store st.ovals st.j v).length = st.j + 1 := by
        rw [hj, store_end]; simp
      by_cases h4 : st.j = 5 - 1
      · have hd : decide (st.j = 5 - 1) = true := by simp [h4]
        simp only [hd, if_true]
        refine ⟨_, rfl, hrec', fun _ => ?_, fun h => ?_⟩
        · simp only [hlen']; omega
        · simp at h
      · have hd : decide (st.j = 5 - 1) = false := by simp [h4]
        simp only [hd, Bool.false_eq_true, if_false]
        have := ih { sum := st.sum, j := st.j + 1, ovals := store st.ovals st.j v,
                     ocounts := store st.ocounts st.j st.sum, is_last := false }
          rfl hlen'.symm (by simp only; omega) (by simp only; omega) hsum hrec'
          (fun i' hi' hc => hnot i' hi' (pct_reached_antitone st.j nr _ (by omega) hc))
        exact this
    · rw [if_neg hR]
      refine ⟨st, rfl, hrec, fun h => (by rw [hl] at h; cases h), fun _ => ⟨hsum, hj, hj5, ?_⟩⟩
      intro i' hi'
      rcases Nat.lt_or_ge i' i with h1 | h1
      · exact hnot i' h1
      · have : i' = i := by omega
        subst this
        rw [← hsum]; exact hR
theorem pct_outer_spec (plat : Nat → Nat) (nr : Nat) (hplat : ∀ i < PLAT_NR, plat i < UINT) :
    ∀ fuel i (st : pstate), fuel + i = PLAT_NR →
      recorded plat nr st.ovals st.ocounts →
      (st.is_last = true → st.ovals.length = 5) →
      (st.is_last = false → st.sum = psum plat i ∧ st.j = st.ovals.length ∧ st.j < 5 ∧
          ∀ i' < i, ¬ pct_reached st.j nr (cumsum plat i')) →
      ∃ st', pct_outer fuel 5 plat nr i st = some st' ∧
        recorded plat nr st'.ovals st'.ocounts ∧
        (st'.is_last = true → st'.ovals.length = 5) ∧
        (st'.is_last = false → st'.j < 5 ∧
          ∀ i' < PLAT_NR, ¬ pct_reached st'.j nr (cumsum plat i')) := by
  intro fuel
  induction fuel with
  | zero =>
    intro i st hi hrec h1 h2
    refine ⟨st, rfl, hrec, h1, fun h => ?_⟩
    obtain ⟨_, _, a, b⟩ := h2 h
    have : i = PLAT_NR := by omega
    subst this
    exact ⟨a, b⟩
  | succ f ih =>
    intro i st hi hrec h1 h2
    unfold pct_outer
    cases hl : st.is_last with
    | true =>
      simp only [if_true]
      exact ⟨st, rfl, hrec, h1, fun h => by rw [hl] at h; cases h⟩
    | false =>
      simp only [Bool.false_eq_true, if_false]
      obtain ⟨hs, hj, hj5, hnot⟩ := h2 hl
      have hlt : psum plat (i + 1) < 2 ^ 53 := psum_lt_2_53 plat (i + 1) (by omega) hplat
      have hsum : (st.sum + plat i) % ULONG = cumsum plat i := by
        rw [hs]
        unfold cumsum
        simp only [psum] at hlt ⊢
        apply Nat.mod_eq_of_lt
        rw [ULONG_eq]
        norm_num at hlt
        omega
      obtain ⟨st1, e1, r1, a1, b1⟩ := pct_inner_spec plat nr i (by omega) 5
        { st with sum := (st.sum + plat i) % ULONG } hl hj hj5 (by simp only; omega) hsum hrec hnot
      rw [hl] at e1
      rw [e1]
      simp only
      exact ih (i + 1) st1 (by omega) r1 a1 (fun h => by
        obtain ⟨x1, x2, x3, x4⟩ := b1 h
        exact ⟨x1, x2, x3, x4⟩)

theorem first_reached_le (plat : Nat → Nat) (nr j a b : Nat) (hj : j < 4)
    (ha : first_reached plat nr j a) (hb : first_reached plat nr (j + 1) b) : a ≤ b := by
  by_contra hc
  push_neg at hc
  exact ha.2 b hc (pct_reached_antitone j nr _ hj hb.1)

theorem sub_last_five (a0 a1 a2 a3 a4 : Nat) (h01 : a0 ≤ a1) (h12 : a1 ≤ a2) (h23 : a2 ≤ a3)
    (h34 : a3 ≤ a4) (h4 : a4 < ULONG) :
    sub_last 4 1 0 [a0, a1, a2, a3, a4] = some [a0, a1 - a0, a2 - a1, a3 - a2, a4 - a3] := by
  rw [ULONG_eq] at h4
  simp only [sub_last, List.getElem?_cons_zero, List.getElem?_cons_succ, List.set_cons_succ,
    List.set_cons_zero, Nat.sub_self, Nat.add_sub_cancel, Nat.reduceAdd, Nat.reduceSub,
    Option.some.injEq, List.cons.injEq, true_and, and_true, ULONG_eq]
  omega

theorem list_five (l : List Nat) (h : l.length = 5) :
    ∃ a0 a1 a2 a3 a4, l = [a0, a1, a2, a3, a4] := by
  match l, h with
  | [a0, a1, a2, a3, a4], _ => exact ⟨a0, a1, a2, a3, a4, rfl⟩
theorem cumsum_mono (plat : Nat → Nat) (a b : Nat) (h : a ≤ b) :
    cumsum plat a ≤ cumsum plat b :=
  psum_mono plat (a + 1) (b + 1) (by omega)

theorem cumsum_last (plat : Nat → Nat) : cumsum plat (PLAT_NR - 1) = psum plat PLAT_NR := by
  rw [PLAT_NR_eq]; rfl

/-- What `calc_percentiles` computes on a histogram whose sample count is the
sum of its buckets: all five percentiles are emitted, each at the first bucket
at which the loop test of that percentile succeeds. -/
theorem calc_percentiles_spec (plat : Nat → Nat) (nr : Nat)
    (hplat : ∀ i < PLAT_NR, plat i < UINT) (hnr : nr = psum plat PLAT_NR) :
    ∃ (idx : Nat → Nat) (r : percentiles), calc_percentiles plat nr = some r ∧ r.len = 5 ∧
      (∀ j < 5, idx j < PLAT_NR ∧ first_reached plat nr j (idx j)) ∧
      (∀ j < 4, idx j ≤ idx (j + 1)) ∧
      r.ovals.length = 5 ∧ (∀ j < 5, r.ovals[j]? = plat_idx_to_val (idx j)) ∧
      r.ocounts = [cumsum plat (idx 0), cumsum plat (idx 1) - cumsum plat (idx 0),
        cumsum plat (idx 2) - cumsum plat (idx 1), cumsum plat (idx 3) - cumsum plat (idx 2),
        cumsum plat (idx 4) - cumsum plat (idx 3)] := by
  have hN : nr < 2 ^ 53 := by rw [hnr]; exact psum_lt_2_53 plat PLAT_NR le_rfl hplat
  obtain ⟨st, e, hrec, hl1, hl2⟩ := pct_outer_spec plat nr hplat PLAT_NR 0
    ⟨0, 0, [], [], false⟩ (by omega) ⟨rfl, fun j hj => by simp at hj⟩ (fun h => by cases h)
    (fun _ => ⟨rfl, rfl, by norm_num, fun i' hi' => by omega⟩)
  have hlast : st.is_last = true := by
    cases h : st.is_last with
    | true => rfl
    | false =>
      exfalso
      obtain ⟨hj, hnot⟩ := hl2 h
      have := hnot (PLAT_NR - 1) (by rw [PLAT_NR_eq]; norm_num)
      rw [cumsum_last, ← hnr] at this
      exact this (pct_reached_total st.j nr hj hN)
  have hlen := hl1 hlast
  obtain ⟨hlo, hent⟩ := hrec
  rw [hlen] at hent
  choose! idx hidx using hent
  have hmono : ∀ j < 4, idx j ≤ idx (j + 1) := fun j hj =>
    first_reached_le plat nr j _ _ hj (hidx j (by omega)).2.1 (hidx (j + 1) (by omega)).2.1
  obtain ⟨a0, a1, a2, a3, a4, hoc⟩ := list_five st.ocounts (by omega)
  have h0 := (hidx 0 (by norm_num)).2.2.2
  have h1 := (hidx 1 (by norm_num)).2.2.2
  have h2 := (hidx 2 (by norm_num)).2.2.2
  have h3 := (hidx 3 (by norm_num)).2.2.2
  have h4 := (hidx 4 (by norm_num)).2.2.2
  rw [hoc] at h0 h1 h2 h3 h4
  simp only [List.getElem?_cons_zero, List.getElem?_cons_succ, Option.some.injEq] at h0 h1 h2 h3 h4
  subst h0 h1 h2 h3 h4
  have hsub := sub_last_five _ _ _ _ _
    (cumsum_mono plat _ _ (hmono 0 (by norm_num))) (cumsum_mono plat _ _ (hmono 1 (by norm_num)))
    (cumsum_mono plat _ _ (hmono 2 (by norm_num))) (cumsum_mono plat _ _ (hmono 3 (by norm_num)))
    (show cumsum plat (idx 4) < ULONG by
      have := psum_lt_2_53 plat (idx 4 + 1) (hidx 4 (by norm_num)).1 hplat
      unfold cumsum
      rw [ULONG_eq]
      norm_num at this
      omega)
  refine ⟨idx, ⟨5, st.ovals, _⟩, ?_, rfl, fun j hj => ⟨(hidx j hj).1, (hidx j hj).2.1⟩, hmono,
    hlen, fun j hj => (hidx j hj).2.2.1, rfl⟩
  unfold calc_percentiles
  simp only [plist_len_eq, e, hoc]
  rw [if_neg (by norm_num)]
  simp only [Nat.add_one_sub_one, hsub]
theorem psum_hist_999_1 (n : Nat) : psum hist_999_1 (n + 2) = 1000 := by
  induction n with
  | zero => rfl
  | succ n ih =>
    rw [show n + 1 + 2 = (n + 2) + 1 by omega, psum, ih]
    simp [hist_999_1]

theorem hist_999_1_lt (i : Nat) : hist_999_1 i < UINT := by
  unfold hist_999_1
  rw [UINT_eq]
  split_ifs <;> norm_num

set_option maxRecDepth 100000 in
theorem calc_hist_999_1 :
    calc_percentiles hist_999_1 1000 = some ⟨5, [0, 0, 0, 0, 1], [999, 0, 0, 0, 1]⟩ := by
  decide

theorem add_lat_iter (x n : Nat) :
    ((fun s => add_lat s x)^[n] stats_zero).plat
        = (fun i => if i = plat_val_to_idx x then n % UINT else 0) ∧
      ((fun s => add_lat s x)^[n] stats_zero).nr_samples = n % ULONG := by
  induction n with
  | zero =>
    refine ⟨?_, rfl⟩
    funext i
    simp [stats_zero]
  | succ n ih =>
    rw [Function.iterate_succ_apply']
    generalize (fun s => add_lat s x)^[n] stats_zero = s at ih ⊢
    obtain ⟨h1, h2⟩ := ih
    constructor
    · funext i
      show Function.update s.plat (plat_val_to_idx x) ((s.plat (plat_val_to_idx x) + 1) % UINT) i
        = _
      rw [h1]
      by_cases hi : i = plat_val_to_idx x
      · subst hi
        simp [Nat.add_mod]
      · simp [Function.update, hi]
    · show (s.nr_samples + 1) % ULONG = _
      rw [h2]
      simp [Nat.add_mod]

theorem psum_point (k c n : Nat) :
    psum (fun i => if i = k then c else 0) n = if k < n then c else 0 := by
  induction n with
  | zero => simp [psum]
  | succ n ih =>
    rw [psum, ih]
    by_cases h1 : k < n
    · have : n ≠ k := by omega
      simp [h1, this, Nat.lt_succ_of_lt h1]
    · by_cases h2 : n = k
      · subst h2; simp
      · have : ¬ k < n + 1 := by omega
        simp [h1, h2, this]

/-- C3 (amended): after `N` samples of the same 32-bit value `x`, with
`1 ≤ N < 2 ^ 32`, every percentile returned by `calc_percentiles` is the value
of the bucket of `x` and the returned counts add up to `N`. -/
theorem C3_single_value (N x : Nat) (h1 : 1 ≤ N) (hN : N < 2 ^ 32) (hx : x < 2 ^ 32) :
    ∃ v r, plat_idx_to_val (plat_val_to_idx x) = some v ∧
      calc_percentiles ((fun s => add_lat s x)^[N] stats_zero).plat
        ((fun s => add_lat s x)^[N] stats_zero).nr_samples = some r ∧
      r.len = 5 ∧ r.ovals = [v, v, v, v, v] ∧ r.ocounts.sum = N := by
  obtain ⟨hp, hn⟩ := add_lat_iter x N
  have hk := plat_val_to_idx_lt x hx
  obtain ⟨v, hv⟩ := plat_idx_to_val_some _ hk
  have hNu : N % UINT = N := Nat.mod_eq_of_lt (by rw [UINT_eq]; norm_num at hN; exact hN)
  have hNl : N % ULONG = N := Nat.mod_eq_of_lt (by rw [ULONG_eq]; norm_num at hN; omega)
  rw [hp, hn, hNu, hNl]
  set k := plat_val_to_idx x with hkdef
  have hplat : ∀ i < PLAT_NR, (fun i => if i = k then N else 0) i < UINT := by
    intro i _
    simp only
    rw [UINT_eq]
    norm_num at hN
    split_ifs <;> omega
  have hsum : N = psum (fun i => if i = k then N else 0) PLAT_NR := by
    rw [psum_point, if_pos hk]
  obtain ⟨idx, r, hr, hlen, hfirst, _, hol, hval, hoc⟩ :=
    calc_percentiles_spec _ N hplat hsum
  have hN53 : N < 2 ^ 53 := lt_trans hN (by norm_num)
  have hidx : ∀ j < 5, idx j = k := by
    intro j hj
    obtain ⟨_, hreach, hleast⟩ := hfirst j hj
    unfold cumsum at hreach hleast
    simp only [psum_point] at hreach hleast
    rcases Nat.lt_trichotomy (idx j) k with h | h | h
    · rw [if_neg (by omega)] at hreach
      exact absurd hreach (pct_not_reached_zero j N hj h1 hN53)
    · exact h
    · have := hleast k h
      rw [if_pos (by omega)] at this
      exact absurd (pct_reached_total j N hj hN53) this
  refine ⟨v, r, hv, hr, hlen, ?_, ?_⟩
  · obtain ⟨a0, a1, a2, a3, a4, hl⟩ := list_five r.ovals hol
    have e0 := hval 0 (by norm_num)
    have e1 := hval 1 (by norm_num)
    have e2 := hval 2 (by norm_num)
    have e3 := hval 3 (by norm_num)
    have e4 := hval 4 (by norm_num)
    rw [hidx _ (by norm_num), hv, hl] at e0 e1 e2 e3 e4
    simp only [List.getElem?_cons_zero, List.getElem?_cons_succ, Option.some.injEq]
      at e0 e1 e2 e3 e4
    rw [hl, e0, e1, e2, e3, e4]
  · rw [hoc, hidx 0 (by norm_num), hidx 1 (by norm_num), hidx 2 (by norm_num),
      hidx 3 (by norm_num), hidx 4 (by norm_num)]
    unfold cumsum
    simp [psum_point]

/-- C3 (amended), instance: three samples of 1000. -/
theorem C3_single_value_witness :
    1 ≤ 3 ∧ 3 < 2 ^ 32 ∧ 1000 < 2 ^ 32 ∧
    ∃ v r, plat_idx_to_val (plat_val_to_idx 1000) = some v ∧
      calc_percentiles ((fun s => add_lat s 1000)^[3] stats_zero).plat
        ((fun s => add_lat s 1000)^[3] stats_zero).nr_samples = some r ∧
      r.len = 5 ∧ r.ovals = [v, v, v, v, v] ∧ r.ocounts.sum = 3 :=
  ⟨by norm_num, by norm_num, by norm_num,
    C3_single_value 3 1000 (by norm_num) (by norm_num) (by norm_num)⟩

theorem pct_outer_silent (plat : Nat → Nat) (nr : Nat) (hz : ∀ i, plat i = 0) :
    ∀ fuel i (st : pstate), st.is_last = false → st.sum = 0 → ¬ pct_reached st.j nr 0 →
      pct_outer fuel 5 plat nr i st = some st := by
  intro fuel
  induction fuel with
  | zero => intro i st _ _ _; rfl
  | succ f ih =>
    intro i st hl hs hR
    obtain ⟨sum, j, ov, oc, il⟩ := st
    simp only at hl hs hR
    subst hl hs
    unfold pct_outer
    simp only [Bool.false_eq_true, if_false, hz, Nat.add_zero, Nat.zero_mod]
    have hin : pct_inner 5 5 nr i ⟨0, j, ov, oc, false⟩ = some ⟨0, j, ov, oc, false⟩ := by
      unfold pct_inner
      rw [if_neg hR]
    rw [hin]
    exact ih (i + 1) _ rfl rfl hR

/-- C3, as stated, is false: after `2 ^ 32` samples of the value 0 the 32-bit
bucket counter has wrapped to 0 while `nr_samples` is `2 ^ 32`, no percentile is
ever reached and `calc_percentiles` returns no values. -/
theorem C3_counter_wraps_at_2_32 :
    ¬ ∃ v r, plat_idx_to_val (plat_val_to_idx 0) = some v ∧
      calc_percentiles ((fun s => add_lat s 0)^[2 ^ 32] stats_zero).plat
        ((fun s => add_lat s 0)^[2 ^ 32] stats_zero).nr_samples = some r ∧
      r.len = 5 ∧ r.ovals = [v, v, v, v, v] ∧ r.ocounts.sum = 2 ^ 32 := by
  rintro ⟨v, r, _, hr, _⟩
  obtain ⟨hp, hn⟩ := add_lat_iter 0 (2 ^ 32)
  rw [hp, hn] at hr
  have hz : ∀ i, (fun i => if i = plat_val_to_idx 0 then 2 ^ 32 % UINT else 0) i = 0 := by
    intro i
    simp [UINT_eq]
  have hnr : 2 ^ 32 % ULONG = 2 ^ 32 := by rw [ULONG_eq]; norm_num
  have hsil := pct_outer_silent _ (2 ^ 32 % ULONG) hz PLAT_NR 0 ⟨0, 0, [], [], false⟩ rfl rfl
    (by rw [hnr]; exact pct_not_reached_zero 0 (2 ^ 32) (by norm_num) (by norm_num) (by norm_num))
  unfold calc_percentiles at hr
  simp only [plist_len_eq, hsil] at hr
  simp [sub_last] at hr
theorem plat_idx_to_val_mono (a b va vb : Nat) (hab : a ≤ b) (hb : b < PLAT_NR)
    (ha' : plat_idx_to_val a = some va) (hb' : plat_idx_to_val b = some vb) : va ≤ vb := by
  rw [PLAT_NR_eq] at hb
  by_cases h1 : b < 512
  · rw [plat_idx_to_val_small a (by omega)] at ha'
    rw [plat_idx_to_val_small b h1] at hb'
    cases ha'; cases hb'; exact hab
  · rw [plat_idx_to_val_large b (by omega) hb] at hb'
    cases hb'
    obtain ⟨g, hg⟩ : ∃ g, b / 256 = g + 2 := ⟨b / 256 - 2, by omega⟩
    rw [hg]
    simp only [Nat.add_sub_cancel]
    have p9 : 2 ^ (g + 2 + 7) = 512 * 2 ^ g := by ring
    rw [p9]
    have hg0 : 0 < 2 ^ g := by positivity
    by_cases h2 : a < 512
    · rw [plat_idx_to_val_small a h2] at ha'
      cases ha'
      have : 512 * 1 ≤ 512 * 2 ^ g := Nat.mul_le_mul_left _ hg0
      omega
    · rw [plat_idx_to_val_large a (by omega) (by omega)] at ha'
      cases ha'
      obtain ⟨f, hf⟩ : ∃ f, a / 256 = f + 2 := ⟨a / 256 - 2, by omega⟩
      rw [hf]
      simp only [Nat.add_sub_cancel]
      have q9 : 2 ^ (f + 2 + 7) = 512 * 2 ^ f := by ring
      rw [q9]
      have hfg : f ≤ g := by
        have : a / 256 ≤ b / 256 := Nat.div_le_div_right hab
        omega
      rcases Nat.eq_or_lt_of_le hfg with h3 | h3
      · subst h3
        have hk : a % 256 ≤ b % 256 := by omega
        have : (2 * (a % 256) + 1) * 2 ^ f ≤ (2 * (b % 256) + 1) * 2 ^ f :=
          Nat.mul_le_mul_right _ (by omega)
        omega
      · have hp : 2 ^ (f + 1) ≤ 2 ^ g := Nat.pow_le_pow_right (by norm_num) h3
        rw [pow_succ] at hp
        have hk : a % 256 < 256 := Nat.mod_lt _ (by norm_num)
        have : (2 * (a % 256) + 1) * 2 ^ f ≤ 511 * 2 ^ f := Nat.mul_le_mul_right _ (by omega)
        omega

/-- C4: on a histogram whose sample count is the sum of its buckets, the values
returned by `calc_percentiles` are non-decreasing in the percentile: for all
`j < k < len`, `ovals[j] ≤ ovals[k]`. -/
theorem C4_percentiles_monotone (plat : Nat → Nat) (nr : Nat)
    (hplat : ∀ i < PLAT_NR, plat i < UINT) (hnr : nr = psum plat PLAT_NR) :
    ∃ r, calc_percentiles plat nr = some r ∧ r.ovals.length = r.len ∧
      ∀ j k, j < k → k < r.len → ∃ vj vk, r.ovals[j]? = some vj ∧ r.ovals[k]? = some vk ∧
        vj ≤ vk := by
  obtain ⟨idx, r, hr, hlen, hfirst, hmono, hol, hval, _⟩ := calc_percentiles_spec plat nr hplat hnr
  refine ⟨r, hr, by rw [hol, hlen], ?_⟩
  intro j k hjk hk
  rw [hlen] at hk
  have hidx : idx j ≤ idx k := by
    have h0 := hmono 0 (by norm_num)
    have h1 := hmono 1 (by norm_num)
    have h2 := hmono 2 (by norm_num)
    have h3 := hmono 3 (by norm_num)
    simp only [Nat.reduceAdd] at h0 h1 h2 h3
    interval_cases k <;> interval_cases j <;> omega
  obtain ⟨vj, hvj⟩ := plat_idx_to_val_some _ (hfirst j (by omega)).1
  obtain ⟨vk, hvk⟩ := plat_idx_to_val_some _ (hfirst k hk).1
  refine ⟨vj, vk, by rw [hval j (by omega), hvj], by rw [hval k hk, hvk], ?_⟩
  exact plat_idx_to_val_mono _ _ _ _ hidx (hfirst k hk).1 hvj hvk

/-- C4, instance: the histogram with 999 samples in bucket 0 and one in bucket 1. -/
theorem C4_percentiles_monotone_witness :
    (∀ i < PLAT_NR, hist_999_1 i < UINT) ∧ 1000 = psum hist_999_1 PLAT_NR ∧
    ∃ r, calc_percentiles hist_999_1 1000 = some r ∧ r.ovals.length = r.len ∧
      ∀ j k, j < k → k < r.len → ∃ vj vk, r.ovals[j]? = some vj ∧ r.ovals[k]? = some vk ∧
        vj ≤ vk :=
  ⟨fun i _ => hist_999_1_lt i, by rw [PLAT_NR_eq]; exact (psum_hist_999_1 4862).symm,
    C4_percentiles_monotone hist_999_1 1000 (fun i _ => hist_999_1_lt i)
      (by rw [PLAT_NR_eq]; exact (psum_hist_999_1 4862).symm)⟩
theorem rhe_of_near (A B K r : Nat) (h : A = K * B + r) (hr : 2 * r < B) : rhe A B = K := by
  have hB : 0 < B := by omega
  have h1 : A / B = K := by
    rw [h, Nat.mul_comm, Nat.mul_add_div hB, Nat.div_eq_of_lt (by omega)]
    rfl
  have h2 : A % B = r := by
    rw [h, Nat.mul_comm, Nat.mul_add_mod, Nat.mod_eq_of_lt (by omega)]
  unfold rhe
  rw [h1, h2, if_pos hr]

/-- A value just above an integer `T` with fewer than `p` bits rounds down to `T`. -/
theorem fl_near_int (p T : Nat) (x : Frac) (hd : x.den ≠ 0) (hT1 : 1 ≤ T)
    (hT : 2 * T < 2 ^ p) (h1 : (T : ℚ) ≤ x.toQ) (h2 : (x.toQ - T) * 2 ^ (p + 1) ≤ T) :
    (fl p x).toQ = T := by
  have hTq : (1 : ℚ) ≤ T := by exact_mod_cast hT1
  have hxpos : 0 < x.toQ := by linarith
  have hn : x.num ≠ 0 := Frac.num_ne_of_pos x hxpos
  obtain ⟨e, A, B, hB, hAB, lo, hi, hf⟩ := fl_spec p x hn hd
  have hBq : (0 : ℚ) < B := by exact_mod_cast hB
  have pe : (0 : ℚ) < 2 ^ e := zpow_pos (by norm_num) _
  have hp2 : (0 : ℚ) < 2 ^ p := by positivity
  have hTp : (2 : ℚ) * T < 2 ^ p := by exact_mod_cast hT
  -- x < 2 ^ p / 2 · (1 + small) < 2 ^ p, so the scaling exponent is not negative
  have hx2 : x.toQ * 2 ^ (p + 1) ≤ T * 2 ^ (p + 1) + T := by linarith
  have hxlt : x.toQ < 2 ^ p := by
    have : x.toQ * 2 ^ (p + 1) < 2 ^ p * 2 ^ (p + 1) := by
      have h3 : (T : ℚ) * 2 ^ (p + 1) + T ≤ (T : ℚ) * 2 ^ (p + 1) + T * 2 ^ (p + 1) := by
        have : (1 : ℚ) ≤ 2 ^ (p + 1) := one_le_pow₀ (by norm_num)
        nlinarith
      have h4 : (T : ℚ) * 2 ^ (p + 1) + T * 2 ^ (p + 1) < 2 ^ p * 2 ^ (p + 1) := by
        have : (0 : ℚ) < 2 ^ (p + 1) := by positivity
        nlinarith
      linarith
    exact lt_of_mul_lt_mul_right this (by positivity)
  have hlo : (2 : ℚ) ^ p ≤ 2 * (x.toQ * 2 ^ e) := by
    rw [← hAB, ← mul_div_assoc, le_div_iff₀ hBq]
    exact_mod_cast lo
  have hhi : x.toQ * 2 ^ e < 2 ^ p := by
    rw [← hAB, div_lt_iff₀ hBq]
    exact_mod_cast hi
  have he0 : 0 ≤ e := by
    by_contra hneg
    push_neg at hneg
    have s1 := two_zpow_step e 0 hneg
    rw [zpow_zero] at s1
    have : x.toQ * (2 * 2 ^ e) ≤ x.toQ * 1 := mul_le_mul_of_nonneg_left s1 hxpos.le
    nlinarith
  obtain ⟨c, rfl⟩ := Int.eq_ofNat_of_zero_le he0
  rw [zpow_natCast] at hAB hlo hhi hf pe
  -- the scaled value is `T * 2 ^ c` plus less than one half
  have hA : (A : ℚ) = x.toQ * 2 ^ c * B := by
    rw [← hAB]; field_simp
  have hge : T * 2 ^ c * B ≤ A := by
    have : ((T * 2 ^ c * B : ℕ) : ℚ) ≤ A := by
      rw [hA]; push_cast
      exact mul_le_mul_of_nonneg_right (mul_le_mul_of_nonneg_right h1 pe.le) hBq.le
    exact_mod_cast this
  obtain ⟨r, hr⟩ := Nat.exists_eq_add_of_le hge
  have hrq : (r : ℚ) = (x.toQ - T) * 2 ^ c * B := by
    have : (A : ℚ) = ((T * 2 ^ c * B + r : ℕ) : ℚ) := by exact_mod_cast hr
    rw [hA] at this
    push_cast at this
    linarith
  have hr2 : 2 * r < B := by
    have h5 : (x.toQ - T) * 2 ^ c * 2 ^ (p + 1) ≤ T * 2 ^ c :=
      by nlinarith [mul_le_mul_of_nonneg_right h2 pe.le]
    have h6 : (T : ℚ) * 2 ^ c ≤ x.toQ * 2 ^ c := mul_le_mul_of_nonneg_right h1 pe.le
    have h7 : (x.toQ - T) * 2 ^ c * 2 ^ (p + 1) < 2 ^ p := by linarith
    have h8 : 2 * ((x.toQ - T) * 2 ^ c) < 1 := by
      rw [pow_succ] at h7
      have : (x.toQ - T) * 2 ^ c * (2 ^ p * 2) = (2 * ((x.toQ - T) * 2 ^ c)) * 2 ^ p := by ring
      rw [this] at h7
      by_contra hc
      push_neg at hc
      have := mul_le_mul_of_nonneg_right hc hp2.le
      linarith
    have : ((2 * r : ℕ) : ℚ) < B := by
      push_cast
      rw [hrq]
      have := mul_lt_mul_of_pos_right h8 hBq
      linarith
    exact_mod_cast this
  rw [hf, rhe_of_near A B (T * 2 ^ c) r hr hr2]
  push_cast
  field_simp

/-- Rounding to `double` keeps a value between the integers that bracket it,
when it is not closer than `1 / 256` to the lower one and either does not
exceed the upper one or exceeds it by less than half a unit in the last place. -/
theorem fl64_bracket (x : Frac) (hd : x.den ≠ 0) (T : Nat) (hT1 : 1 ≤ T) (hT : T < 2 ^ 45)
    (hlo : (T : ℚ) - 1 + 1 / 256 ≤ x.toQ)
    (hhi : x.toQ ≤ T ∨ (x.toQ - T) * 2 ^ 54 ≤ T) :
    (T : ℚ) - 1 < (fl64 x).toQ ∧ (fl64 x).toQ ≤ T := by
  have hTq : (1 : ℚ) ≤ T := by exact_mod_cast hT1
  constructor
  · -- compare with the representable value `T - 1 + 1 / 256`
    have hy : ((⟨(T - 1) * 256 + 1, 256⟩ : Frac)).toQ = (T : ℚ) - 1 + 1 / 256 := by
      obtain ⟨t, rfl⟩ : ∃ t, T = t + 1 := ⟨T - 1, by omega⟩
      simp [Frac.toQ]
      field_simp
    have hex : (fl64 ⟨(T - 1) * 256 + 1, 256⟩).toQ = (T : ℚ) - 1 + 1 / 256 := by
      rw [fl64, fl_exact 53 _ (by norm_num) ((T - 1) * 256 + 1) 8 (by omega)
        (by simp [Frac.toQ]; norm_num), hy]
    have := fl_mono 53 (by norm_num) ⟨(T - 1) * 256 + 1, 256⟩ x (by norm_num) hd
      (by rw [hy]; exact hlo)
    rw [← fl64, ← fl64, hex] at this
    linarith
  · rcases hhi with h | h
    · have := fl_mono 53 (by norm_num) x (Frac.ofNat T) hd (by simp [Frac.ofNat])
        (by rw [Frac.toQ_ofNat]; exact h)
      rw [← fl64, ← fl64, fl64_nat T (by omega)] at this
      exact this
    · by_cases hle : x.toQ ≤ T
      · have := fl_mono 53 (by norm_num) x (Frac.ofNat T) hd (by simp [Frac.ofNat])
          (by rw [Frac.toQ_ofNat]; exact hle)
        rw [← fl64, ← fl64, fl64_nat T (by omega)] at this
        exact this
      · push_neg at hle
        rw [fl64, fl_near_int 53 T x hd hT1 (by omega) hle.le h]
set_option maxRecDepth 100000 in
/-- The doubles `plist[j] / 100.0` for `20`, `50`, `90` and `99`. -/
theorem pct_coeff_values :
    (fl64 (Frac.div (plist.getD 0 ⟨0, 1⟩) ⟨100, 1⟩)).toQ = 3602879701896397 / 2 ^ 54 ∧
    (fl64 (Frac.div (plist.getD 1 ⟨0, 1⟩) ⟨100, 1⟩)).toQ = 1 / 2 ∧
    (fl64 (Frac.div (plist.getD 2 ⟨0, 1⟩) ⟨100, 1⟩)).toQ = 8106479329266893 / 2 ^ 53 ∧
    (fl64 (Frac.div (plist.getD 3 ⟨0, 1⟩) ⟨100, 1⟩)).toQ = 4458563631096791 / 2 ^ 52 := by
  have h0 : fl64 (Frac.div (plist.getD 0 ⟨0, 1⟩) ⟨100, 1⟩)
      = ⟨7205759403792794, 36028797018963968⟩ := by decide
  have h1 : fl64 (Frac.div (plist.getD 1 ⟨0, 1⟩) ⟨100, 1⟩)
      = ⟨4503599627370496, 9007199254740992⟩ := by decide
  have h2 : fl64 (Frac.div (plist.getD 2 ⟨0, 1⟩) ⟨100, 1⟩)
      = ⟨8106479329266893, 9007199254740992⟩ := by decide
  have h3 : fl64 (Frac.div (plist.getD 3 ⟨0, 1⟩) ⟨100, 1⟩)
      = ⟨8917127262193582, 9007199254740992⟩ := by decide
  rw [h0, h1, h2, h3]
  simp only [Frac.toQ]
  norm_num

/-- The percentile of index `j < 4` as a number of hundredths. -/
theorem plist_exact_values (j : Nat) (hj : j < 4) :
    ∃ p : Nat, plist_exact.getD j ⟨0, 1⟩ = ⟨p, 1⟩ ∧ 20 ≤ p ∧ p ≤ 99 ∧
      -(39 / 6400 : ℚ)
        ≤ ((fl64 (Frac.div (plist.getD j ⟨0, 1⟩) ⟨100, 1⟩)).toQ - (p : ℚ) / 100) * 2 ^ 45 ∧
      ((fl64 (Frac.div (plist.getD j ⟨0, 1⟩) ⟨100, 1⟩)).toQ - (p : ℚ) / 100) * 2 ^ 45
        ≤ 39 / 6400 ∧
      ((fl64 (Frac.div (plist.getD j ⟨0, 1⟩) ⟨100, 1⟩)).toQ - (p : ℚ) / 100) * 100 * 2 ^ 54
        ≤ p := by
  obtain ⟨c0, c1, c2, c3⟩ := pct_coeff_values
  interval_cases j
  · refine ⟨20, rfl, by norm_num, by norm_num, ?_, ?_, ?_⟩ <;> rw [c0] <;> norm_num
  · refine ⟨50, rfl, by norm_num, by norm_num, ?_, ?_, ?_⟩ <;> rw [c1] <;> norm_num
  · refine ⟨90, rfl, by norm_num, by norm_num, ?_, ?_, ?_⟩ <;> rw [c2] <;> norm_num
  · refine ⟨99, rfl, by norm_num, by norm_num, ?_, ?_, ?_⟩ <;> rw [c3] <;> norm_num

/-- For `20`, `50`, `90` and `99` the double precision test of the loop agrees
with the exact comparison `sum ≥ p / 100 · nr`, for every count below `2 ^ 45`. -/
theorem pct_reached_exact (j N S : Nat) (hj : j < 4) (hN : N < 2 ^ 45) (hS : S < 2 ^ 53) :
    pct_reached j N S ↔ exact_reached j N S := by
  obtain ⟨p, hp, p20, p99, hab1, hab2, hup⟩ := plist_exact_values j hj
  have hex : exact_reached j N S ↔ p * N ≤ 100 * S := by
    unfold exact_reached
    rw [hp]
    simp only [Frac.le, Frac.mul, Frac.div, Frac.ofNat, mul_one, one_mul]
    rw [Nat.mul_comm S 100]
  rw [hex, pct_reached_iff, fl64_nat S hS, pct_threshold_eq]
  have hNq : (fl64 (Frac.ofNat N)).toQ = N := fl64_nat N (lt_trans hN (by norm_num))
  set c := (fl64 (Frac.div (plist.getD j ⟨0, 1⟩) ⟨100, 1⟩)).toQ with hc
  have hx : (Frac.mul (fl64 (Frac.div (plist.getD j ⟨0, 1⟩) ⟨100, 1⟩))
      (fl64 (Frac.ofNat N))).toQ = c * N := by rw [Frac.toQ_mul, hNq]
  have hxd : (Frac.mul (fl64 (Frac.div (plist.getD j ⟨0, 1⟩) ⟨100, 1⟩))
      (fl64 (Frac.ofNat N))).den ≠ 0 := Frac.mul_den_ne _ _ (fl64_den_ne _) (fl64_den_ne _)
  rcases Nat.eq_zero_or_pos N with h0 | hpos
  · subst h0
    have : (fl64 (Frac.mul (fl64 (Frac.div (plist.getD j ⟨0, 1⟩) ⟨100, 1⟩))
        (fl64 (Frac.ofNat 0)))).toQ = 0 := by
      apply fl_zero
      have : (fl64 (Frac.ofNat 0)).num = 0 := by decide
      simp [Frac.mul, this]
    rw [this]
    simp
  · -- the integer threshold
    have hM20 : 20 * 1 ≤ p * N := Nat.mul_le_mul p20 hpos
    have hM99 : p * N ≤ 99 * N := Nat.mul_le_mul_right _ p99
    obtain ⟨T, hT1, hT2, hTpos, hTN⟩ : ∃ T, 100 * (T - 1) + 1 ≤ p * N ∧ p * N ≤ 100 * T ∧
        1 ≤ T ∧ T ≤ N := by
      generalize p * N = M at hM20 hM99
      exact ⟨(M + 99) / 100, by omega, by omega, by omega, by omega⟩
    have hTq1 : (100 : ℚ) * ((T : ℚ) - 1) + 1 ≤ p * N := by
      have : ((100 * (T - 1) + 1 : ℕ) : ℚ) ≤ ((p * N : ℕ) : ℚ) := by exact_mod_cast hT1
      obtain ⟨t, rfl⟩ : ∃ t, T = t + 1 := ⟨T - 1, by omega⟩
      simp only [Nat.add_sub_cancel] at this
      push_cast at this ⊢
      linarith
    have hTq2 : (p : ℚ) * N ≤ 100 * T := by exact_mod_cast hT2
    have hNq' : (N : ℚ) < 2 ^ 45 := by exact_mod_cast hN
    have hN0 : (0 : ℚ) < N := by exact_mod_cast hpos
    have hηN1 : -(39 / 6400 : ℚ) ≤ (c - p / 100) * N := by
      rcases le_or_lt 0 (c - (p : ℚ) / 100) with hs | hs
      · have : 0 ≤ (c - (p : ℚ) / 100) * N := mul_nonneg hs hN0.le
        linarith
      · have : (c - (p : ℚ) / 100) * 2 ^ 45 ≤ (c - (p : ℚ) / 100) * N :=
          mul_le_mul_of_nonpos_left hNq'.le hs.le
        linarith
    have hηN2 : (c - p / 100) * N ≤ (39 / 6400 : ℚ) := by
      rcases le_or_lt 0 (c - (p : ℚ) / 100) with hs | hs
      · have : (c - (p : ℚ) / 100) * N ≤ (c - (p : ℚ) / 100) * 2 ^ 45 :=
          mul_le_mul_of_nonneg_left hNq'.le hs
        linarith
      · have : (c - (p : ℚ) / 100) * N ≤ 0 := mul_nonpos_of_nonpos_of_nonneg hs.le hN0.le
        linarith
    have hcN : c * N = (p : ℚ) * N / 100 + (c - p / 100) * N := by ring
    have hbr := fl64_bracket _ hxd T hTpos (lt_of_le_of_lt hTN hN)
      (by rw [hx, hcN]; linarith)
      (by
        rw [hx]
        rcases Nat.lt_or_ge (p * N) (100 * T) with hlt | hge
        · left
          have : ((p * N + 1 : ℕ) : ℚ) ≤ ((100 * T : ℕ) : ℚ) := by exact_mod_cast hlt
          push_cast at this
          rw [hcN]
          linarith
        · right
          have heq : (p : ℚ) * N = 100 * T := le_antisymm hTq2 (by exact_mod_cast hge)
          have e1 : c * N - T = (c - p / 100) * N := by rw [hcN]; linarith
          rw [e1]
          have h3 : (c - p / 100) * 2 ^ 54 ≤ (p : ℚ) / 100 := by linarith
          have h4 : (c - p / 100) * 2 ^ 54 * N ≤ (p : ℚ) / 100 * N :=
            mul_le_mul_of_nonneg_right h3 hN0.le
          linarith)
    constructor
    · intro h
      have hlt : (T : ℚ) - 1 < S := lt_of_lt_of_le hbr.1 h
      have : T ≤ S := by
        have : (T : ℚ) < S + 1 := by linarith
        have : T < S + 1 := by exact_mod_cast this
        omega
      omega
    · intro h
      have : T ≤ S := by omega
      have : (T : ℚ) ≤ S := by exact_mod_cast this
      linarith [hbr.2]
/-- C2, as stated, is false: with 999 samples in bucket 0 and one in bucket 1,
bucket 0 already holds 99.9 % of the 1000 samples in exact arithmetic, but the
code, comparing with the double `99.9 / 100.0 * 1000 = 999.0000000000001`,
reports bucket 1 for the last percentile. -/
theorem C2_exact_threshold_fails :
    ¬ ∀ (plat : Nat → Nat) (nr : Nat), (∀ i < PLAT_NR, plat i < UINT) → 1 ≤ nr →
      nr = psum plat PLAT_NR →
      ∃ (idx : Nat → Nat) (r : percentiles), calc_percentiles plat nr = some r ∧ r.len = 5 ∧
        (∀ j < 5, exact_reached j nr (cumsum plat (idx j)) ∧
          (∀ i < idx j, ¬ exact_reached j nr (cumsum plat i)) ∧
          r.ovals[j]? = plat_idx_to_val (idx j)) ∧
        r.ocounts = [cumsum plat (idx 0), cumsum plat (idx 1) - cumsum plat (idx 0),
          cumsum plat (idx 2) - cumsum plat (idx 1), cumsum plat (idx 3) - cumsum plat (idx 2),
          cumsum plat (idx 4) - cumsum plat (idx 3)] := by
  intro h
  obtain ⟨idx, r, hr, _, hj, _⟩ := h hist_999_1 1000 (fun i _ => hist_999_1_lt i) (by norm_num)
    (by rw [PLAT_NR_eq]; exact (psum_hist_999_1 4862).symm)
  obtain ⟨_, hleast, hval⟩ := hj 4 (by norm_num)
  have h0 : idx 4 = 0 := by
    by_contra hne
    exact hleast 0 (Nat.pos_of_ne_zero hne) (by decide)
  rw [calc_hist_999_1] at hr
  cases hr
  rw [h0, plat_idx_to_val_small 0 (by norm_num)] at hval
  simp at hval

theorem psum_lt_2_45 (plat : Nat → Nat) (hplat : ∀ i < PLAT_NR, plat i < UINT) :
    psum plat PLAT_NR < 2 ^ 45 := by
  have h2 := psum_le plat PLAT_NR hplat
  rw [PLAT_NR_eq, UINT_eq] at h2
  rw [PLAT_NR_eq]
  norm_num at h2 ⊢
  omega

/-- C2 (amended): on a histogram whose sample count `nr ≥ 1` is the sum of its
4864 buckets, `calc_percentiles` returns `len = 5` and `ovals[j]` is the value of
a bucket `idx j`; for 20, 50, 90 and 99 that is the least bucket whose cumulative
count is at least `p / 100 · nr` in exact arithmetic, for 99.9 it is the least
bucket whose cumulative count passes the code's test
`sum >= plist[j] / 100.0 * nr` evaluated in double precision; `ocounts` holds the
cumulative count of the first such bucket followed by the successive
differences. -/
theorem C2_percentiles_first_reached (plat : Nat → Nat) (nr : Nat)
    (hplat : ∀ i < PLAT_NR, plat i < UINT) (_hpos : 1 ≤ nr) (hnr : nr = psum plat PLAT_NR) :
    ∃ (idx : Nat → Nat) (r : percentiles), calc_percentiles plat nr = some r ∧ r.len = 5 ∧
      (∀ j < 5, idx j < PLAT_NR ∧ r.ovals[j]? = plat_idx_to_val (idx j)) ∧
      (∀ j < 4, exact_reached j nr (cumsum plat (idx j)) ∧
        ∀ i < idx j, ¬ exact_reached j nr (cumsum plat i)) ∧
      (pct_reached 4 nr (cumsum plat (idx 4)) ∧
        ∀ i < idx 4, ¬ pct_reached 4 nr (cumsum plat i)) ∧
      r.ocounts = [cumsum plat (idx 0), cumsum plat (idx 1) - cumsum plat (idx 0),
        cumsum plat (idx 2) - cumsum plat (idx 1), cumsum plat (idx 3) - cumsum plat (idx 2),
        cumsum plat (idx 4) - cumsum plat (idx 3)] := by
  obtain ⟨idx, r, hr, hlen, hfirst, _, _, hval, hoc⟩ := calc_percentiles_spec plat nr hplat hnr
  have hN : nr < 2 ^ 45 := by rw [hnr]; exact psum_lt_2_45 plat hplat
  have hS : ∀ i < PLAT_NR, cumsum plat i < 2 ^ 53 := fun i hi =>
    psum_lt_2_53 plat (i + 1) (by omega) hplat
  refine ⟨idx, r, hr, hlen, fun j hj => ⟨(hfirst j hj).1, hval j hj⟩, fun j hj => ?_,
    ⟨(hfirst 4 (by norm_num)).2.1, (hfirst 4 (by norm_num)).2.2⟩, hoc⟩
  obtain ⟨hb, hreach, hleast⟩ := hfirst j (by omega)
  refine ⟨(pct_reached_exact j nr _ hj hN (hS _ hb)).mp hreach, fun i hi hc => ?_⟩
  exact hleast i hi ((pct_reached_exact j nr _ hj hN (hS i (by omega))).mpr hc)

/-- C2 (amended), instance: the histogram with 999 samples in bucket 0 and one
in bucket 1. -/
theorem C2_percentiles_first_reached_witness :
    (∀ i < PLAT_NR, hist_999_1 i < UINT) ∧ 1 ≤ 1000 ∧ 1000 = psum hist_999_1 PLAT_NR ∧
    ∃ (idx : Nat → Nat) (r : percentiles), calc_percentiles hist_999_1 1000 = some r ∧
      r.len = 5 ∧
      (∀ j < 5, idx j < PLAT_NR ∧ r.ovals[j]? = plat_idx_to_val (idx j)) ∧
      (∀ j < 4, exact_reached j 1000 (cumsum hist_999_1 (idx j)) ∧
        ∀ i < idx j, ¬ exact_reached j 1000 (cumsum hist_999_1 i)) ∧
      (pct_reached 4 1000 (cumsum hist_999_1 (idx 4)) ∧
        ∀ i < idx 4, ¬ pct_reached 4 1000 (cumsum hist_999_1 i)) ∧
      r.ocounts = [cumsum hist_999_1 (idx 0),
        cumsum hist_999_1 (idx 1) - cumsum hist_999_1 (idx 0),
        cumsum hist_999_1 (idx 2) - cumsum hist_999_1 (idx 1),
        cumsum hist_999_1 (idx 3) - cumsum hist_999_1 (idx 2),
        cumsum hist_999_1 (idx 4) - cumsum hist_999_1 (idx 3)] :=
  ⟨fun i _ => hist_999_1_lt i, by norm_num, by rw [PLAT_NR_eq]; exact (psum_hist_999_1 4862).symm,
    C2_percentiles_first_reached hist_999_1 1000 (fun i _ => hist_999_1_lt i) (by norm_num)
      (by rw [PLAT_NR_eq]; exact (psum_hist_999_1 4862).symm)⟩
/-- C5: folding with `combine_stats` is associative on the counters: both
groupings give the same value in every bucket (addition modulo `2 ^ 32`) and
the same `nr_samples`. -/
theorem C5_combine_assoc (A B C : stats) :
    (combine_stats (combine_stats A B) C).plat = (combine_stats A (combine_stats B C)).plat ∧
    (combine_stats (combine_stats A B) C).nr_samples
      = (combine_stats A (combine_stats B C)).nr_samples := by
  constructor
  · funext i
    simp only [combine_stats]
    split_ifs
    · rw [UINT_eq]; omega
    · rfl
  · simp only [combine_stats]
    rw [ULONG_eq]; omega

theorem to_ull_nonneg (x : Int) (h : 0 ≤ x) : to_ull x = x.toNat % ULONG := by
  unfold to_ull
  obtain ⟨n, rfl⟩ := Int.eq_ofNat_of_zero_le h
  rw [ULONG_eq]
  simp only [Int.toNat_ofNat]
  omega

/-- The normalised difference computed by `tvsub` on well-formed operands. -/
theorem tvsub_spec (t1 t0 : timeval) (hu1 : 0 ≤ t1.tv_usec) (hv1 : t1.tv_usec < 1000000)
    (hu0 : 0 ≤ t0.tv_usec) (hv0 : t0.tv_usec < 1000000) :
    ∃ td, tvsub t1 t0 = some td ∧ 0 ≤ td.tv_sec ∧ 0 ≤ td.tv_usec ∧
      td.tv_sec * 1000000 + td.tv_usec = max 0 (t1.usecs - t0.usecs) := by
  unfold tvsub timeval.usecs
  simp only [USEC_PER_SEC]
  by_cases h1 : t1.tv_usec - t0.tv_usec < 0 ∧ t1.tv_sec - t0.tv_sec > 0
  · rw [if_pos h1, if_neg (by push_cast; omega)]
    simp only
    rw [if_neg (by push_cast; omega)]
    refine ⟨_, rfl, by simp only; omega, by simp only; push_cast; omega, ?_⟩
    simp only
    push_cast
    rw [max_eq_right (by omega)]
    ring
  · rw [if_neg h1]
    simp only
    by_cases h2 : t1.tv_usec - t0.tv_usec < 0 ∨ t1.tv_sec < t0.tv_sec
    · rw [if_pos h2]
      refine ⟨_, rfl, le_rfl, le_rfl, ?_⟩
      simp only
      rw [max_eq_left (by omega)]
      norm_num
    · rw [if_neg h2]
      refine ⟨_, rfl, by simp only; omega, by simp only; omega, ?_⟩
      simp only
      rw [max_eq_right (by omega)]
      ring

/-- C6, as stated, is false: from the epoch to second `2 ^ 63 - 1` the true
difference is `(2 ^ 63 - 1) * 10 ^ 6` microseconds, but the `unsigned long long`
product wraps and `tvdelta` returns `2 ^ 64 - 10 ^ 6`. -/
theorem C6_tvdelta_wraps :
    ¬ ∀ start stop : timeval, 0 ≤ start.tv_sec → 0 ≤ stop.tv_sec →
      0 ≤ start.tv_usec → start.tv_usec < 1000000 → 0 ≤ stop.tv_usec → stop.tv_usec < 1000000 →
      tvsub stop start ≠ none ∧
      tvdelta start stop = some (max 0 (stop.usecs - start.usecs)).toNat := by
  intro h
  have := (h ⟨0, 0⟩ ⟨2 ^ 63 - 1, 0⟩ (by decide) (by decide) (by decide) (by decide) (by decide)
    (by decide)).2
  revert this
  decide

/-- C6 (amended): for timevals with `tv_sec ≥ 0` and `0 ≤ tv_usec < 1000000`,
`tvsub` never takes its `exit(1)` branch and `tvdelta` returns
`max(0, stop - start)` in microseconds reduced modulo `2 ^ 64`, hence exactly
`max(0, stop - start)` when that is below `2 ^ 64`; a stop earlier than the
start yields 0. -/
theorem C6_tvdelta_clamped (start stop : timeval) (_hs : 0 ≤ start.tv_sec)
    (_ht : 0 ≤ stop.tv_sec) (hu0 : 0 ≤ start.tv_usec) (hv0 : start.tv_usec < 1000000)
    (hu1 : 0 ≤ stop.tv_usec) (hv1 : stop.tv_usec < 1000000) :
    tvsub stop start ≠ none ∧
    tvdelta start stop = some ((max 0 (stop.usecs - start.usecs)).toNat % ULONG) ∧
    (max 0 (stop.usecs - start.usecs) < 2 ^ 64 →
      tvdelta start stop = some (max 0 (stop.usecs - start.usecs)).toNat) ∧
    (stop.usecs ≤ start.usecs → tvdelta start stop = some 0) := by
  obtain ⟨td, htd, hs, hu, hval⟩ := tvsub_spec stop start hu1 hv1 hu0 hv0
  have hmain : tvdelta start stop = some ((max 0 (stop.usecs - start.usecs)).toNat % ULONG) := by
    unfold tvdelta
    rw [htd]
    simp only
    rw [to_ull_nonneg _ hs, to_ull_nonneg _ hu, ← hval]
    obtain ⟨a, ha⟩ := Int.eq_ofNat_of_zero_le hs
    obtain ⟨b, hb⟩ := Int.eq_ofNat_of_zero_le hu
    rw [ha, hb]
    have e : ((a : Int) * 1000000 + (b : Int)).toNat = a * 1000000 + b := by
      have : ((a : Int) * 1000000 + (b : Int)) = ((a * 1000000 + b : ℕ) : Int) := by push_cast; ring
      rw [this, Int.toNat_ofNat]
    simp only [Int.toNat_ofNat, e, USEC_PER_SEC]
    congr 1
    rw [ULONG_eq]
    omega
  refine ⟨by rw [htd]; simp, hmain, fun hlt => ?_, fun hle => ?_⟩
  · rw [hmain, Nat.mod_eq_of_lt]
    rw [ULONG_eq]
    have h0 : (0 : Int) ≤ max 0 (stop.usecs - start.usecs) := le_max_left _ _
    omega
  · rw [hmain, max_eq_left (by omega)]
    simp

/-- C6 (amended), instance: from 10.999999 s to 12.000001 s. -/
theorem C6_tvdelta_clamped_witness :
    (0 : Int) ≤ 10 ∧ (0 : Int) ≤ 12 ∧ (0 : Int) ≤ 999999 ∧ (999999 : Int) < 1000000 ∧
    (0 : Int) ≤ 1 ∧ (1 : Int) < 1000000 ∧
    (tvsub ⟨12, 1⟩ ⟨10, 999999⟩ ≠ none ∧
    tvdelta ⟨10, 999999⟩ ⟨12, 1⟩
      = some ((max 0 ((⟨12, 1⟩ : timeval).usecs - (⟨10, 999999⟩ : timeval).usecs)).toNat % ULONG) ∧
    (max 0 ((⟨12, 1⟩ : timeval).usecs - (⟨10, 999999⟩ : timeval).usecs) < 2 ^ 64 →
      tvdelta ⟨10, 999999⟩ ⟨12, 1⟩
        = some (max 0 ((⟨12, 1⟩ : timeval).usecs - (⟨10, 999999⟩ : timeval).usecs)).toNat) ∧
    ((⟨12, 1⟩ : timeval).usecs ≤ (⟨10, 999999⟩ : timeval).usecs →
      tvdelta ⟨10, 999999⟩ ⟨12, 1⟩ = some 0)) :=
  ⟨by decide, by decide, by decide, by decide, by decide, by decide,
    C6_tvdelta_clamped ⟨10, 999999⟩ ⟨12, 1⟩ (by decide) (by decide) (by decide) (by decide)
      (by decide) (by decide)⟩
/-- C7, as stated, is false: nine injections into worker 0 with no worker step
in between are all admitted (the ninth finds `pending = 8`, which is not `> 8`)
and leave `pending = 9`. -/
theorem C7_pending_reaches_nine :
    ¬ ∀ p : Nat → Nat, rps_reachable p → ∀ w, p w ≤ 8 := by
  intro h
  have hr : rps_reachable ((fun p => run_rps_thread_inject p 0)^[9] (fun _ => 0)) := by
    simp only [Function.iterate_succ, Function.iterate_zero, Function.comp, id]
    repeat apply rps_reachable.inject
    exact rps_reachable.init
  have := h _ hr 0
  revert this
  decide

/-- C7 (amended): in every state reachable from all counters zero by injector
steps and worker steps in any order, no worker's `pending` exceeds 9. -/
theorem C7_pending_le_nine (p : Nat → Nat) (h : rps_reachable p) : ∀ w, p w ≤ 9 := by
  induction h with
  | init => intro w; norm_num
  | inject p v _ ih =>
    intro w
    unfold run_rps_thread_inject
    split_ifs with h8
    · exact ih w
    · by_cases hw : w = v
      · subst hw
        simp only [Function.update_same]
        have := ih w
        exact le_trans (Nat.mod_le _ _) (by omega)
      · rw [Function.update_noteq hw]
        exact ih w
  | reset p v _ ih =>
    intro w
    unfold msg_and_wait_reset
    by_cases hw : w = v
    · subst hw; simp
    · rw [Function.update_noteq hw]
      exact ih w

/-- C7 (amended), instance: the state after one injection into worker 0. -/
theorem C7_pending_le_nine_witness :
    rps_reachable (run_rps_thread_inject (fun _ => 0) 0) ∧
      ∀ w, run_rps_thread_inject (fun _ => 0) 0 w ≤ 9 :=
  ⟨rps_reachable.inject _ 0 rps_reachable.init,
    C7_pending_le_nine _ (rps_reachable.inject _ 0 rps_reachable.init)⟩

/-- The overflow of the 32-bit product: with `runtime = 2148` the threshold
becomes `2 ^ 64 - 2146967296` and an elapsed time of 2148 seconds does not mark
`done`. -/
theorem sleep_for_runtime_overflow :
    sleep_for_runtime_done 2148 2148000000 false = false := by decide
theorem request_add_seq (m : intake) (add : Nat) :
    request_add 1 m add = some (⟨add, Function.update m.next add m.request⟩, m.request) := by
  simp [request_add]

theorem is_list_frame (next : Nat → Nat) (a v : Nat) :
    ∀ (l : List Nat) (p : Nat), a ∉ l → is_list next p l →
      is_list (Function.update next a v) p l := by
  intro l
  induction l with
  | nil => intro p _ h; exact h
  | cons b t ih =>
    intro p ha h
    obtain ⟨h1, h2, h3⟩ := h
    simp only [List.mem_cons, not_or] at ha
    refine ⟨h1, h2, ?_⟩
    rw [Function.update_noteq (Ne.symm ha.1)]
    exact ih _ ha.2 h3

theorem request_add_all_spec :
    ∀ (rs : List Nat) (m : intake) (l0 : List Nat), is_list m.next m.request l0 →
      (rs ++ l0).Nodup → (∀ r ∈ rs, r ≠ 0) →
      ∃ m', request_add_all m rs = some m' ∧ is_list m'.next m'.request (rs.reverse ++ l0) := by
  intro rs
  induction rs with
  | nil => intro m l0 h _ _; exact ⟨m, rfl, h⟩
  | cons r t ih =>
    intro m l0 h hnd hnz
    simp only [request_add_all, request_add_seq]
    have hr : r ∉ t ++ l0 := (List.nodup_cons.mp hnd).1
    have hr0 : r ∉ l0 := fun hc => hr (List.mem_append_right _ hc)
    have hrt : r ∉ t := fun hc => hr (List.mem_append_left _ hc)
    have hl : is_list (Function.update m.next r m.request) r (r :: l0) := by
      refine ⟨rfl, hnz r (List.mem_cons_self _ _), ?_⟩
      rw [Function.update_same]
      exact is_list_frame _ _ _ _ _ hr0 h
    have hnd' : (t ++ r :: l0).Nodup := (List.perm_middle.nodup_iff).mpr hnd
    obtain ⟨m', e, hm'⟩ := ih ⟨r, Function.update m.next r m.request⟩ (r :: l0) hl hnd'
      (fun x hx => hnz x (List.mem_cons_of_mem _ hx))
    refine ⟨m', e, ?_⟩
    rw [List.reverse_cons, List.append_assoc]
    exact hm'

theorem reverse_loop_spec :
    ∀ (l1 l2 : List Nat) (next : Nat → Nat) (ret rev fuel : Nat), is_list next ret l1 →
      is_list next rev l2 → (l1 ++ l2).Nodup → l1.length < fuel →
      ∃ next' p, reverse_loop fuel next ret rev = some (next', p) ∧
        is_list next' p (l1.reverse ++ l2) := by
  intro l1
  induction l1 with
  | nil =>
    intro l2 next ret rev fuel h1 h2 _ hf
    obtain ⟨f, rfl⟩ : ∃ f, fuel = f + 1 := ⟨fuel - 1, by simp at hf; omega⟩
    have : ret = 0 := h1
    subst this
    exact ⟨next, rev, by simp [reverse_loop], h2⟩
  | cons a t ih =>
    intro l2 next ret rev fuel h1 h2 hnd hf
    obtain ⟨f, rfl⟩ : ∃ f, fuel = f + 1 := ⟨fuel - 1, by simp at hf; omega⟩
    obtain ⟨e1, e2, e3⟩ := h1
    subst e1
    have ha : ret ∉ t ++ l2 := (List.nodup_cons.mp hnd).1
    have ha2 : ret ∉ l2 := fun hc => ha (List.mem_append_right _ hc)
    have hat : ret ∉ t := fun hc => ha (List.mem_append_left _ hc)
    have hnd' : (t ++ ret :: l2).Nodup := (List.perm_middle.nodup_iff).mpr hnd
    have hl2 : is_list (Function.update next ret rev) ret (ret :: l2) := by
      refine ⟨rfl, e2, ?_⟩
      rw [Function.update_same]
      exact is_list_frame _ _ _ _ _ ha2 h2
    obtain ⟨next', p, e, hp⟩ := ih (ret :: l2) (Function.update next ret rev) (next ret) ret f
      (is_list_frame _ _ _ _ _ hat e3) hl2 hnd' (by simp at hf; omega)
    refine ⟨next', p, ?_, ?_⟩
    · unfold reverse_loop
      rw [if_pos e2]
      exact e
    · rw [List.reverse_cons, List.append_assoc]
      exact hp

/-- C8: in a sequential execution, requests `r1 … rn` (distinct, non-null) pushed
in that order with `request_add` onto an empty request list are returned by
`request_splice` as the list `r1, r2, …, rn` ending in `NULL`, and the head is
left `NULL`. -/
theorem C8_splice_push_order (rs : List Nat) (next0 : Nat → Nat) (hnd : rs.Nodup)
    (hnz : ∀ r ∈ rs, r ≠ 0) :
    ∃ m, request_add_all ⟨0, next0⟩ rs = some m ∧
      ∀ fuel, rs.length < fuel →
        ∃ m' p, request_splice fuel m = some (m', p) ∧ m'.request = 0 ∧ is_list m'.next p rs := by
  obtain ⟨m, e, hm⟩ := request_add_all_spec rs ⟨0, next0⟩ [] rfl (by simpa using hnd) hnz
  refine ⟨m, e, fun fuel hf => ?_⟩
  obtain ⟨f, rfl⟩ : ∃ f, fuel = f + 1 := ⟨fuel - 1, by omega⟩
  simp only [List.append_nil] at hm
  obtain ⟨next', p, e2, hp⟩ := reverse_loop_spec rs.reverse [] m.next m.request 0 (f + 1) hm rfl
    (by simpa using hnd) (by simpa using hf)
  refine ⟨⟨0, next'⟩, p, ?_, rfl, by simpa using hp⟩
  simp [request_splice, splice_head, e2]

/-- C8, instance: three requests at addresses 16, 32 and 48. -/
theorem C8_splice_push_order_witness :
    [16, 32, 48].Nodup ∧ (∀ r ∈ [16, 32, 48], r ≠ 0) ∧
    ∃ m, request_add_all ⟨0, fun _ => 0⟩ [16, 32, 48] = some m ∧
      ∀ fuel, [16, 32, 48].length < fuel →
        ∃ m' p, request_splice fuel m = some (m', p) ∧ m'.request = 0 ∧
          is_list m'.next p [16, 32, 48] :=
  ⟨by decide, by decide, C8_splice_push_order [16, 32, 48] (fun _ => 0) (by decide) (by decide)⟩
theorem Frac.ceil_eq (x : Frac) (hd : x.den ≠ 0) (v : Nat) (h : x.toQ = v) : x.ceil = v := by
  have h1 : (x.den : ℚ) ≠ 0 := by exact_mod_cast hd
  unfold Frac.toQ at h
  rw [div_eq_iff h1] at h
  have h2 : x.num = v * x.den := by exact_mod_cast h
  unfold Frac.ceil
  have hpos : 0 < x.den := Nat.pos_of_ne_zero hd
  rw [h2, Nat.add_sub_assoc hpos, Nat.add_comm, Nat.add_mul_div_right _ _ hpos,
    Nat.div_eq_of_lt (by omega)]
  omega

theorem fl32_den_ne (x : Frac) : (fl32 x).den ≠ 0 := (fl_den_pos 24 x).ne'

theorem fl32_nat (n : Nat) (h : n < 2 ^ 24) : (fl32 (Frac.ofNat n)).toQ = n := by
  have := fl_exact 24 (Frac.ofNat n) (by simp [Frac.ofNat]) n 0 h (by simp [Frac.toQ_ofNat])
  rw [fl32, this, Frac.toQ_ofNat]

theorem store_rate_clamped (sc : scaler) (rate : Frac) (c : Nat) :
    (store_rate sc (if Frac.le ⟨2 ^ 31, 1⟩ (Frac.ofNat c) then rate else Frac.ofNat c)).map
        (fun t => t.requests_per_sec)
      = if 2 ^ 31 ≤ c then (if Frac.floor rate < 2 ^ 31 then some (Frac.floor rate) else none)
        else some c := by
  unfold store_rate
  simp only [Frac.le, Frac.ofNat, mul_one]
  by_cases h : 2 ^ 31 ≤ c
  · simp only [if_pos h]
    split_ifs <;> rfl
  · simp only [if_neg h, Frac.floor, Nat.div_one]
    rw [if_pos (by omega)]
    rfl

set_option maxRecDepth 100000 in
/-- C9, as stated, is false: with `R = 27`, target 100 and `busy = 45` the exact
rule gives `ceil(27 * 100 / 45) = 60`, but the single precision quotient
`2.2222223` makes the product `60.000004` and the code stores 61. -/
theorem C9_single_precision_overshoots :
    ¬ ∀ (s : scaler) (busy : Frac), busy.num ≠ 0 → busy.den ≠ 0 →
      Frac.lt busy (Frac.ofNat s.auto_rps) →
      (auto_scale_rps s false busy).map (fun t => t.requests_per_sec)
        = some (scale_up_exact s.requests_per_sec s.auto_rps busy) := by
  intro h
  have := h ⟨27, 100, false, stats_zero⟩ ⟨45, 1⟩ (by decide) (by decide) (by decide)
  revert this
  decide

/-- C9 (amended): for a reading `0 < busy < (float)auto_rps` on a call that is not
the first, `auto_scale_rps` sets `requests_per_sec` to the growth rule evaluated
in single precision, `ceil(fl(fl(R) * d))` with `delta = fl(fl(target) / busy)`
(`scale_up_single`); when `delta > 3` and `3 * R < 2 ^ 24` that is exactly `3 * R`. -/
theorem C9_scale_up_single (s : scaler) (busy : Frac) (hb : busy.num ≠ 0)
    (hlt : Frac.lt busy (fl32 (Frac.ofNat s.auto_rps))) :
    (auto_scale_rps s false busy).map (fun t => t.requests_per_sec)
      = scale_up_single s.requests_per_sec s.auto_rps busy ∧
    (Frac.lt ⟨3, 1⟩ (fl32 (Frac.div (fl32 (Frac.ofNat s.auto_rps)) busy)) →
      3 * s.requests_per_sec < 2 ^ 24 →
      (auto_scale_rps s false busy).map (fun t => t.requests_per_sec)
        = some (3 * s.requests_per_sec)) := by
  have hmain : (auto_scale_rps s false busy).map (fun t => t.requests_per_sec)
      = scale_up_single s.requests_per_sec s.auto_rps busy := by
    unfold auto_scale_rps scale_up_single
    simp only [Bool.false_eq_true, if_false, if_pos hlt, hb, false_or]
    generalize fl32 (Frac.div (fl32 (Frac.ofNat s.auto_rps)) busy) = delta
    generalize fl32 (Frac.ofNat s.requests_per_sec) = rate
    by_cases c1 : Frac.lt ⟨3, 1⟩ delta
    · simp only [if_pos c1]
      exact store_rate_clamped _ _ _
    · simp only [if_neg c1]
      by_cases c2 : Frac.lt delta (fl64 ⟨12, 10⟩)
      · simp only [if_pos c2]
        exact store_rate_clamped _ _ _
      · simp only [if_neg c2]
        by_cases c3 : Frac.lt delta (fl64 ⟨15, 10⟩)
        · simp only [if_pos c3]
          exact store_rate_clamped _ _ _
        · simp only [if_neg c3]
          exact store_rate_clamped _ _ _
  refine ⟨hmain, fun h3 hR => ?_⟩
  rw [hmain]
  have hR24 : s.requests_per_sec < 2 ^ 24 := by omega
  have hrate : (fl32 (Frac.ofNat s.requests_per_sec)).toQ = s.requests_per_sec :=
    fl32_nat _ hR24
  have hprod : (fl32 (Frac.mul (fl32 (Frac.ofNat s.requests_per_sec)) ⟨3, 1⟩)).toQ
      = ((3 * s.requests_per_sec : ℕ) : ℚ) := by
    have hx : (Frac.mul (fl32 (Frac.ofNat s.requests_per_sec)) ⟨3, 1⟩).toQ
        = ((3 * s.requests_per_sec : ℕ) : ℚ) / 2 ^ 0 := by
      rw [Frac.toQ_mul, hrate]
      simp [Frac.toQ]
      ring
    rw [fl32, fl_exact 24 _ (Frac.mul_den_ne _ _ (fl32_den_ne _) (by norm_num)) _ 0 hR hx, hx]
    simp
  have hceil := Frac.ceil_eq _ (fl32_den_ne _) _ hprod
  unfold scale_up_single
  simp only [if_pos h3, hceil]
  rw [if_neg (by omega)]

set_option maxRecDepth 100000 in
/-- C9 (amended), instance: `R = 27`, target 100 and `busy = 45`. -/
theorem C9_scale_up_single_witness :
    (⟨45, 1⟩ : Frac).num ≠ 0 ∧ Frac.lt ⟨45, 1⟩ (fl32 (Frac.ofNat 100)) ∧
    ((auto_scale_rps ⟨27, 100, false, stats_zero⟩ false ⟨45, 1⟩).map (fun t => t.requests_per_sec)
      = scale_up_single 27 100 ⟨45, 1⟩ ∧
    (Frac.lt ⟨3, 1⟩ (fl32 (Frac.div (fl32 (Frac.ofNat 100)) ⟨45, 1⟩)) →
      3 * 27 < 2 ^ 24 →
      (auto_scale_rps ⟨27, 100, false, stats_zero⟩ false ⟨45, 1⟩).map (fun t => t.requests_per_sec)
        = some (3 * 27))) :=
  ⟨by decide, by decide, C9_scale_up_single ⟨27, 100, false, stats_zero⟩ ⟨45, 1⟩ (by decide) (by decide)⟩

/-! ### Command line -/

theorem ite_some_cases {α : Type} {p : Prop} [Decidable p] {a : α} {x : Option α} {r : α}
    (h : (if p then some a else x) = some r) : (p ∧ a = r) ∨ (¬ p ∧ x = some r) := by
  by_cases hp : p
  · rw [if_pos hp] at h; exact Or.inl ⟨hp, Option.some.inj h⟩
  · rw [if_neg hp] at h; exact Or.inr ⟨hp, h⟩

theorem parse_case_spec (cfg : config) (fw : Int) (c : Nat) (optarg : Int)
    (r : config × Int) (h : parse_case cfg fw c optarg = some r)
    (h0 : cfg.warmuptime = 0) :
    r.1.warmuptime = 0 ∧ r.2 = (if c = 'w'.toNat then optarg else fw) := by
  unfold parse_case at h
  rcases ite_some_cases h with ⟨hc, rfl⟩ | ⟨_, h⟩
  · subst hc; exact ⟨h0, (if_neg (by decide)).symm⟩
  rcases ite_some_cases h with ⟨hc, rfl⟩ | ⟨_, h⟩
  · subst hc; exact ⟨h0, (if_neg (by decide)).symm⟩
  rcases ite_some_cases h with ⟨hc, rfl⟩ | ⟨_, h⟩
  · subst hc; exact ⟨rfl, (if_neg (by decide)).symm⟩
  rcases ite_some_cases h with ⟨hc, rfl⟩ | ⟨_, h⟩
  · subst hc; exact ⟨rfl, (if_neg (by decide)).symm⟩
  rcases ite_some_cases h with ⟨hc, rfl⟩ | ⟨hw, h⟩
  · exact ⟨h0, (if_pos hc).symm⟩
  rcases ite_some_cases h with ⟨_, rfl⟩ | ⟨_, h⟩
  · exact ⟨h0, (if_neg hw).symm⟩
  rcases ite_some_cases h with ⟨_, rfl⟩ | ⟨_, h⟩
  · exact ⟨h0, (if_neg hw).symm⟩
  rcases ite_some_cases h with ⟨_, rfl⟩ | ⟨_, h⟩
  · exact ⟨h0, (if_neg hw).symm⟩
  rcases ite_some_cases h with ⟨_, rfl⟩ | ⟨_, h⟩
  · exact ⟨h0, (if_neg hw).symm⟩
  rcases ite_some_cases h with ⟨_, rfl⟩ | ⟨_, h⟩
  · exact ⟨h0, (if_neg hw).symm⟩
  rcases ite_some_cases h with ⟨_, rfl⟩ | ⟨_, h⟩
  · exact ⟨h0, (if_neg hw).symm⟩
  rcases ite_some_cases h with ⟨_, rfl⟩ | ⟨_, h⟩
  · exact ⟨h0, (if_neg hw).symm⟩
  rcases ite_some_cases h with ⟨_, rfl⟩ | ⟨_, h⟩
  · exact ⟨h0, (if_neg hw).symm⟩
  by_cases hq : c = '?'.toNat ∨ c = HELP_LONG_OPT
  · rw [if_pos hq] at h; exact absurd h (by simp)
  · rw [if_neg hq] at h
    obtain rfl := Option.some.inj h
    exact ⟨h0, (if_neg hw).symm⟩

theorem parse_loop_spec (av : List cli_arg) :
    ∀ (cfg : config) (fw : Int) (r : config × Int),
      parse_loop av cfg fw = some r → cfg.warmuptime = 0 →
      r.1.warmuptime = 0 ∧ r.2 = last_warmuptime av fw := by
  induction av with
  | nil =>
    intro cfg fw r h h0
    simp [parse_loop] at h
    subst h
    exact ⟨h0, rfl⟩
  | cons a rest ih =>
    intro cfg fw r h h0
    simp only [parse_loop] at h
    cases hc : parse_case cfg fw (getopt_long a) a.optarg with
    | none => rw [hc] at h; simp at h
    | some r1 =>
      rw [hc] at h
      obtain ⟨h1, h2⟩ := parse_case_spec cfg fw _ _ r1 hc h0
      obtain ⟨h3, h4⟩ := ih r1.1 r1.2 r h h1
      refine ⟨h3, ?_⟩
      rw [h4, h2]
      rfl

theorem parse_finish_runtime (cfg : config) (fw : Int) (extra : Bool) (out : config)
    (h : parse_finish cfg fw extra = some out) :
    out.runtime = cfg.runtime ∧
    out.warmuptime =
      (if cfg.runtime < 30 then 0 else if fw ≥ 0 then fw else cfg.warmuptime) := by
  unfold parse_finish at h
  cases extra with
  | true => simp at h
  | false =>
    simp only [Bool.false_eq_true, if_false, Option.some.injEq] at h
    subst h
    by_cases hf : fw ≥ 0 <;> by_cases hc : cfg.calibrate_only ≠ 0 <;>
      by_cases hr : cfg.runtime < 30 <;> simp [hf, hc, hr]

/-- Rows of `long_options` other than `cache_footprint` and `help` carry the
character of their short option, so `getopt_long` returns the same value for
the two forms. -/
theorem long_options_agree :
    ∀ o ∈ long_options, o.1 ≠ "cache_footprint" → o.1 ≠ "help" →
      ∀ v w : Int, getopt_long (.long o.1 v) = getopt_long (.short (Char.ofNat o.2.2) w) := by
  have key : ∀ o ∈ long_options, o.1 ≠ "cache_footprint" → o.1 ≠ "help" →
      getopt_long (.long o.1 0) = getopt_long (.short (Char.ofNat o.2.2) 0) := by decide
  intro o ho h1 h2 v w
  exact key o ho h1 h2

/-- With `R ≥ M ≥ 1` the rate left by `main` is not zero and both tests choose
the requests-per-second mode. -/
theorem rps_mode_of_le (R M : Int) (hM : 1 ≤ M) (hR : M ≤ R) :
    ∃ r, main_requests_per_sec R M = some r ∧ r ≠ 0 ∧
      message_thread_loop r = .run_rps_thread ∧
      msg_and_wait_branch r = .request_splice := by
  have hM0 : M ≠ 0 := by omega
  have hpos : 0 < Int.tdiv R M := by
    rw [Int.tdiv_eq_ediv (by omega) (by omega)]
    have := Int.le_ediv_of_mul_le (a := 1) (by omega : 0 < M) (by omega : 1 * M ≤ R)
    omega
  refine ⟨Int.tdiv R M, by simp [main_requests_per_sec, hM0], by omega, ?_, ?_⟩
  · simp [message_thread_loop]; omega
  · simp [msg_and_wait_branch]; omega

/-- With `0 ≤ R < M` the rate left by `main` is zero and both tests choose the
classic mode. -/
theorem rps_mode_lost_of_lt (R M : Int) (hR : 0 ≤ R) (hM : R < M) :
    main_requests_per_sec R M = some 0 ∧
      message_thread_loop 0 = .run_msg_thread ∧
      msg_and_wait_branch 0 = .xlist_add := by
  have hM0 : M ≠ 0 := by omega
  refine ⟨?_, by decide, by decide⟩
  simp only [main_requests_per_sec, hM0, if_false, Option.some.injEq]
  rw [Int.tdiv_eq_ediv hR (by omega)]
  exact Int.ediv_eq_zero_of_lt hR hM

/-- C11: the options `-R 1 -m 2` are accepted and leave `requests_per_sec = 1`,
`message_threads = 2`; the division in `main` then leaves rate 0, so the
message thread runs `run_msg_thread` and `msg_and_wait` takes the `xlist_add`
branch: the requests-per-second mode asked for is not enabled. -/
theorem C11_rps_mode_lost :
    ∃ cfg, parse_options [.short 'R' 1, .short 'm' 2] false = some cfg ∧
      cfg.requests_per_sec = 1 ∧ cfg.message_threads = 2 ∧
      main_requests_per_sec cfg.requests_per_sec cfg.message_threads = some 0 ∧
      message_thread_loop 0 = .run_msg_thread ∧
      msg_and_wait_branch 0 = .xlist_add :=
  ⟨_, rfl, by decide, by decide, by decide, by decide, by decide⟩

/-- C12 (counterexample): `-p 4096 -w 5 -r 60` is accepted and selects pipe
mode, yet the resulting warmuptime is 5. -/
theorem C12_warmuptime_kept :
    ¬ (∀ (av : List cli_arg) (extra : Bool) (cfg : config),
        parse_options av extra = some cfg →
        (cfg.runtime < 30 ∨ (∃ a ∈ av, getopt_long a = 'p'.toNat) ∨
          (∃ a ∈ av, getopt_long a = 'A'.toNat)) →
        cfg.warmuptime = 0) := by
  intro h
  have h1 := h [.short 'p' 4096, .short 'w' 5, .short 'r' 60] false _ rfl
    (Or.inr (Or.inl ⟨.short 'p' 4096, by simp, by decide⟩))
  revert h1
  decide

/-- C12 (amended): for every accepted command line the resulting warmuptime is
0 when the resulting runtime is below 30; otherwise it is the value of the
last `-w` if that is not negative, also after `-p` or `-A`, and 0 if there is
no such value. -/
theorem C12_warmuptime (av : List cli_arg) (extra : Bool) (cfg : config)
    (h : parse_options av extra = some cfg) :
    cfg.warmuptime =
      (if cfg.runtime < 30 then 0
       else if last_warmuptime av (-1) ≥ 0 then last_warmuptime av (-1) else 0) := by
  unfold parse_options at h
  cases hl : parse_loop av config_init (-1) with
  | none => rw [hl] at h; simp at h
  | some r =>
    rw [hl] at h
    obtain ⟨h1, h2⟩ := parse_loop_spec av config_init (-1) r hl rfl
    obtain ⟨h3, h4⟩ := parse_finish_runtime r.1 r.2 extra cfg h
    rw [h4, h3, h2, h1]

theorem C12_warmuptime_witness :
    (⟨1, 0, 60, 5, 10, 0, 256, 5, 50, 0, 10, 0, 0⟩ : config).warmuptime =
      (if (⟨1, 0, 60, 5, 10, 0, 256, 5, 50, 0, 10, 0, 0⟩ : config).runtime < 30 then 0
       else if last_warmuptime [.short 'A' 50, .long "warmuptime" 5, .short 'r' 60] (-1) ≥ 0
         then last_warmuptime [.short 'A' 50, .long "warmuptime" 5, .short 'r' 60] (-1)
         else 0) :=
  C12_warmuptime [.short 'A' 50, .long "warmuptime" 5, .short 'r' 60] false
    ⟨1, 0, 60, 5, 10, 0, 256, 5, 50, 0, 10, 0, 0⟩ (by decide)

/-- C13: `--cache_footprint N` leaves every global at its initial value, so
`cache_footprint_kb` stays 256, while `-F N` stores `N`: the row of
`long_options` carries the character `f`, for which the switch has no case. -/
theorem C13_long_cache_footprint_ignored :
    (∀ N : Int, parse_options [.long "cache_footprint" N] false = some config_init) ∧
    (∀ N : Int, parse_options [.short 'F' N] false =
      some { config_init with cache_footprint_kb := to_ull N }) ∧
    config_init.cache_footprint_kb = 256 ∧ to_ull 512 = 512 ∧
    getopt_long (.long "cache_footprint" 512) = 'f'.toNat ∧
    getopt_long (.short 'F' 512) = 'F'.toNat := by
  refine ⟨fun N => ?_, fun N => ?_, rfl, by decide, by decide, by decide⟩
  · rfl
  · rfl

/-! ### The futex gate -/

/-- A post on a gate that is already running issues no wake and leaves the
gate as it is, whatever a wake call would return. -/
theorem fpost_running (g : gate) (s : Int) (h : g.futex = FUTEX_RUNNING) :
    fpost g s = some g := by
  obtain ⟨f, w, p⟩ := g
  simp only at h
  subst h
  simp [fpost, sync_bool_compare_and_swap, FUTEX_RUNNING, FUTEX_BLOCKED]

/-- A wait on a running gate returns 0 at its first compare-and-swap, for
every budget of at least one iteration and every environment. -/
theorem fwait_running (fuel : Nat) (g : gate) (env : List park)
    (h : g.futex = FUTEX_RUNNING) :
    fwait (fuel + 1) g env = some ({ g with futex := FUTEX_BLOCKED }, 0) := by
  simp [fwait, sync_bool_compare_and_swap, h]

/-- C14: on a gate holding `FUTEX_BLOCKED`, a post whose wake call does not
fail returns with the gate at `FUTEX_RUNNING` and exactly one more wake
issued; a wait begun after that returns 0 at its first compare-and-swap, for
every iteration budget and every environment, with no park issued and the
gate back at `FUTEX_BLOCKED`; and a post on any gate holding `FUTEX_RUNNING`
issues no wake and changes nothing. -/
theorem C14_no_lost_wakeup (g : gate) (s : Int) (fuel : Nat) (env : List park)
    (hb : g.futex = FUTEX_BLOCKED) (hs : s ≠ -1) :
    fpost g s = some { g with futex := FUTEX_RUNNING, wakes := g.wakes + 1 } ∧
    fwait (fuel + 1) { g with futex := FUTEX_RUNNING, wakes := g.wakes + 1 } env =
      some ({ g with futex := FUTEX_BLOCKED, wakes := g.wakes + 1 }, 0) ∧
    (∀ (g2 : gate) (s2 : Int), g2.futex = FUTEX_RUNNING → fpost g2 s2 = some g2) := by
  refine ⟨?_, ?_, fun g2 s2 h2 => fpost_running g2 s2 h2⟩
  · simp [fpost, sync_bool_compare_and_swap, hb, hs]
  · exact fwait_running fuel _ env rfl

theorem C14_no_lost_wakeup_witness :
    fpost ⟨0, 4, 2⟩ 1 = some { (⟨0, 4, 2⟩ : gate) with futex := FUTEX_RUNNING, wakes := 4 + 1 } ∧
    fwait (0 + 1) { (⟨0, 4, 2⟩ : gate) with futex := FUTEX_RUNNING, wakes := 4 + 1 } [] =
      some ({ (⟨0, 4, 2⟩ : gate) with futex := FUTEX_BLOCKED, wakes := 4 + 1 }, 0) ∧
    (∀ (g2 : gate) (s2 : Int), g2.futex = FUTEX_RUNNING → fpost g2 s2 = some g2) :=
  C14_no_lost_wakeup ⟨0, 4, 2⟩ 1 0 [] rfl (by decide)

/-! ### The per-CPU locks -/

theorem int_add_fit (a b : Int) (h1 : 0 ≤ a + b) (h2 : a + b < 2 ^ 31) :
    int_add a b = a + b := by
  unfold int_add Int.bmod
  norm_num at h2 ⊢
  omega

theorem int_mul_fit (a b : Int) (h1 : 0 ≤ a * b) (h2 : a * b < 2 ^ 31) :
    int_mul a b = a * b := by
  unfold int_mul Int.bmod
  generalize a * b = p at h1 h2 ⊢
  norm_num at h2 ⊢
  omega

theorem walk_workers_spec (n : Nat) :
    ∀ s : Nat, s + n < 2 ^ 31 →
      walk_workers n (s : Int) =
        ((List.range n).map (fun j => ((s + j : Nat) : Int)), ((s + n : Nat) : Int)) := by
  induction n with
  | zero => intro s _; simp [walk_workers]
  | succ n ih =>
    intro s hs
    have h1 : int_add (s : Int) 1 = ((s + 1 : Nat) : Int) := by
      rw [int_add_fit _ _ (by omega) (by norm_num at hs ⊢; omega)]
      push_cast; rfl
    simp only [walk_workers, h1, ih (s + 1) (by omega)]
    refine Prod.ext ?_ ?_
    · simp only [List.range_succ_eq_map, List.map_cons, List.map_map]
      refine congrArg₂ _ (by simp) ?_
      apply List.map_congr_left
      intro j _
      simp only [Function.comp]
      exact congrArg Nat.cast (by omega)
    · exact congrArg Nat.cast (by omega)

theorem walk_message_threads_spec (W m : Nat) :
    ∀ s : Nat, s + m * (W + 1) < 2 ^ 31 →
      walk_message_threads m W (s : Int) =
        (List.range m).flatMap (fun i =>
          (List.range W).map (fun j => ((s + i * (W + 1) + 1 + j : Nat) : Int))) := by
  induction m with
  | zero => intro s _; simp [walk_message_threads]
  | succ m ih =>
    intro s hs
    have hmul : (m + 1) * (W + 1) = m * (W + 1) + (W + 1) := by ring
    have h1 : int_add (s : Int) 1 = ((s + 1 : Nat) : Int) := by
      rw [int_add_fit _ _ (by omega) (by norm_num at hs ⊢; omega)]
      push_cast; rfl
    simp only [walk_message_threads, h1, walk_workers_spec W (s + 1) (by omega),
      ih (s + 1 + W) (by omega)]
    simp only [List.range_succ_eq_map, List.flatMap_cons, List.flatMap_map]
    refine congrArg₂ _ ?_ ?_
    · apply List.map_congr_left
      intro j _
      exact congrArg Nat.cast (by omega)
    · refine congrArg _ ?_
      funext i
      apply List.map_congr_left
      intro j _
      have : i.succ * (W + 1) = i * (W + 1) + (W + 1) := by
        rw [Nat.succ_mul]
      exact congrArg Nat.cast (by omega)

theorem mem_worker_slots (M W x : Nat) :
    x ∈ worker_slots M W ↔ ∃ i < M, ∃ j < W, x = i * (W + 1) + 1 + j := by
  simp only [worker_slots, List.mem_flatMap, List.mem_range, List.mem_map]
  constructor
  · rintro ⟨i, hi, j, hj, rfl⟩
    exact ⟨i, hi, j, hj, rfl⟩
  · rintro ⟨i, hi, j, hj, rfl⟩
    exact ⟨i, hi, j, hj, rfl⟩

theorem worker_slots_nodup (M W : Nat) : (worker_slots M W).Nodup := by
  unfold worker_slots
  rw [List.nodup_flatMap]
  refine ⟨fun i _ => (List.nodup_range W).map (fun a b h => by simpa using h), ?_⟩
  refine (List.pairwise_lt_range M).imp ?_
  intro a b hab
  show List.Disjoint _ _
  intro x hxa hxb
  simp only [List.mem_map, List.mem_range] at hxa hxb
  obtain ⟨j, hj, rfl⟩ := hxa
  obtain ⟨k, hk, h⟩ := hxb
  have h1 : (a + 1) * (W + 1) ≤ b * (W + 1) := Nat.mul_le_mul_right _ hab
  have h2 : (a + 1) * (W + 1) = a * (W + 1) + (W + 1) := by ring
  omega

theorem worker_slots_lt (M W x : Nat) (h : x ∈ worker_slots M W) : x < M + M * W := by
  obtain ⟨i, hi, j, hj, rfl⟩ := (mem_worker_slots M W x).mp h
  have h1 : (i + 1) * (W + 1) ≤ M * (W + 1) := Nat.mul_le_mul_right _ hi
  have h2 : (i + 1) * (W + 1) = i * (W + 1) + (W + 1) := by ring
  have h3 : M * (W + 1) = M + M * W := by ring
  omega

theorem message_slot_not_worker (M W i : Nat) : i * W + i ∉ worker_slots M W := by
  intro h
  obtain ⟨k, _, j, hj, hx⟩ := (mem_worker_slots M W _).mp h
  have h0 : i * W + i = i * (W + 1) := by ring
  rcases Nat.lt_or_ge k i with hlt | hge
  · have h1 : (k + 1) * (W + 1) ≤ i * (W + 1) := Nat.mul_le_mul_right _ hlt
    have h2 : (k + 1) * (W + 1) = k * (W + 1) + (W + 1) := by ring
    omega
  · have h1 : i * (W + 1) ≤ k * (W + 1) := Nat.mul_le_mul_right _ hge
    omega

theorem main_slot_fit (M W i : Nat) (hfit : M * (W + 1) < 2 ^ 31) (hi : i < M) :
    main_slot (i : Int) (W : Int) = ((i * W + i : Nat) : Int) := by
  have h1 : (i + 1) * (W + 1) ≤ M * (W + 1) := Nat.mul_le_mul_right _ hi
  have h2 : (i + 1) * (W + 1) = i * W + i + (W + 1) := by ring
  have h3 : ((i : Int) * (W : Int)) = ((i * W : Nat) : Int) := by push_cast; rfl
  have h4 : i * W + i < 2147483648 := by norm_num at hfit; omega
  unfold main_slot
  rw [int_mul_fit _ _ (by rw [h3]; omega) (by rw [h3]; norm_num; omega), h3,
    int_add_fit _ _ (by omega) (by norm_num; omega)]
  push_cast
  rfl

theorem main_slot_count_fit (M W : Nat) (hfit : M * (W + 1) < 2 ^ 31) :
    main_slot_count (M : Int) (W : Int) = ((M + M * W : Nat) : Int) := by
  have h2 : M * (W + 1) = M * W + M := by ring
  have h3 : ((M : Int) * (W : Int)) = ((M * W : Nat) : Int) := by push_cast; rfl
  have h4 : M * W + M < 2147483648 := by norm_num at hfit; omega
  unfold main_slot_count
  rw [int_mul_fit _ _ (by rw [h3]; omega) (by rw [h3]; norm_num; omega), h3,
    int_add_fit _ _ (by omega) (by norm_num; omega)]
  push_cast
  ring

theorem walk_eq_worker_slots (M W : Nat) (hfit : M * (W + 1) < 2 ^ 31) :
    walk_message_threads M W 0 = (worker_slots M W).map (Nat.cast : Nat → Int) := by
  have h := walk_message_threads_spec W M 0 (by omega)
  rw [Nat.cast_zero] at h
  rw [h, worker_slots, List.map_flatMap]
  refine congrArg _ ?_
  funext i
  rw [List.map_map]
  apply List.map_congr_left
  intro j _
  simp

theorem workers_eq_worker_slots (M W : Nat) (hfit : M * (W + 1) < 2 ^ 31) :
    (List.range M).flatMap (fun i => message_thread_workers (main_slot (i : Int) (W : Int)) W) =
      (worker_slots M W).map (Nat.cast : Nat → Int) := by
  rw [worker_slots, List.map_flatMap, List.flatMap_def, List.flatMap_def]
  refine congrArg _ ?_
  apply List.map_congr_left
  intro i hi
  rw [main_slot_fit M W i hfit (List.mem_range.mp hi), message_thread_workers, List.map_map]
  apply List.map_congr_left
  intro j _
  simp only [Function.comp]
  push_cast
  ring

theorem first_slot_visited (m w : Nat) :
    (1 : Int) ∈ walk_message_threads (m + 1) (w + 1) 0 := by
  have h : int_add 0 1 = 1 := by decide
  simp [walk_message_threads, walk_workers, h]

/-- C16 (counterexample): with 2 message threads and 2147483647 workers each,
`main` asks for `2 * 2147483647 + 2` elements, which is 0 in `int`, while the
walk visits slot 1: a visited slot lies outside the array. -/
theorem C16_slot_outside_array :
    ¬ (∀ M W : Nat, 1 ≤ M → 1 ≤ W → M < 2 ^ 31 → W < 2 ^ 31 →
        (∀ x : Int, x ∈ combine_message_thread_stats_slots M W ↔
          ∃ i < M, ∃ j < W, x = ((i * (W + 1) + 1 + j : Nat) : Int)) ∧
        (∀ x ∈ combine_message_thread_stats_slots M W,
          x < main_slot_count (M : Int) (W : Int))) := by
  intro h
  have h1 := (h 2 2147483647 (by decide) (by decide) (by decide) (by decide)).2 1
    (first_slot_visited 1 2147483646)
  revert h1
  decide

/-- C16 (amended): when `M * (W + 1)` is below `2 ^ 31`, so that neither the
`int` index nor the element count of `main` overflows, the three walks visit
the slots `i * (W + 1) + 1 + j`, `i < M`, `j < W`, in this order and each
once; every such slot is below the element count `M + M * W` of `main`; none
is the slot `i * W + i` of a message thread; and they are the slots
`td + 1 .. td + W` on which message thread `i`, placed at `td = i * W + i`,
starts its workers. -/
theorem C16_worker_slots (M W : Nat) (hfit : M * (W + 1) < 2 ^ 31) :
    combine_message_thread_stats_slots M W = (worker_slots M W).map (Nat.cast : Nat → Int) ∧
    combine_message_thread_rps_slots M W = (worker_slots M W).map (Nat.cast : Nat → Int) ∧
    reset_thread_stats_slots M W = (worker_slots M W).map (Nat.cast : Nat → Int) ∧
    (∀ x : Nat, x ∈ worker_slots M W ↔ ∃ i < M, ∃ j < W, x = i * (W + 1) + 1 + j) ∧
    (worker_slots M W).Nodup ∧
    main_slot_count (M : Int) (W : Int) = ((M + M * W : Nat) : Int) ∧
    (∀ x ∈ worker_slots M W, x < M + M * W) ∧
    (∀ i < M, main_slot (i : Int) (W : Int) = ((i * W + i : Nat) : Int) ∧
      i * W + i ∉ worker_slots M W) ∧
    (List.range M).flatMap
        (fun i => message_thread_workers (main_slot (i : Int) (W : Int)) W) =
      (worker_slots M W).map (Nat.cast : Nat → Int) :=
  ⟨walk_eq_worker_slots M W hfit, walk_eq_worker_slots M W hfit,
   walk_eq_worker_slots M W hfit, mem_worker_slots M W, worker_slots_nodup M W,
   main_slot_count_fit M W hfit, worker_slots_lt M W,
   fun i hi => ⟨main_slot_fit M W i hfit hi, message_slot_not_worker M W i⟩,
   workers_eq_worker_slots M W hfit⟩

theorem C16_worker_slots_witness :
    3 * (4 + 1) < 2 ^ 31 ∧
    (combine_message_thread_stats_slots 3 4 = (worker_slots 3 4).map (Nat.cast : Nat → Int) ∧
    combine_message_thread_rps_slots 3 4 = (worker_slots 3 4).map (Nat.cast : Nat → Int) ∧
    reset_thread_stats_slots 3 4 = (worker_slots 3 4).map (Nat.cast : Nat → Int) ∧
    (∀ x : Nat, x ∈ worker_slots 3 4 ↔ ∃ i : Nat, i < 3 ∧ ∃ j : Nat, j < 4 ∧ x = i * (4 + 1) + 1 + j) ∧
    (worker_slots 3 4).Nodup ∧
    main_slot_count ((3 : Nat) : Int) ((4 : Nat) : Int) = ((3 + 3 * 4 : Nat) : Int) ∧
    (∀ x ∈ worker_slots 3 4, x < 3 + 3 * 4) ∧
    (∀ i : Nat, i < 3 → main_slot (i : Int) ((4 : Nat) : Int) = ((i * 4 + i : Nat) : Int) ∧
      i * 4 + i ∉ worker_slots 3 4) ∧
    (List.range 3).flatMap
        (fun i => message_thread_workers (main_slot (i : Int) ((4 : Nat) : Int)) 4) =
      (worker_slots 3 4).map (Nat.cast : Nat → Int)) :=
  ⟨by norm_num, C16_worker_slots 3 4 (by norm_num)⟩

/-! ### The pause of the injector -/

/-- While the rate is not zero the pause is computed. -/
theorem run_rps_thread_sleep_time_some (R : Nat) (h : R ≠ 0) :
    ∃ t, run_rps_thread_sleep_time R = some t := by
  simp [run_rps_thread_sleep_time, h]

set_option maxRecDepth 100000 in
/-- C17: entered with rate 1 and goal 50, one update of `auto_scale_rps` on a
reading of 51 percent busy stores `floorf(1 * 0.98…) = 0` in
`requests_per_sec`, and the next evaluation of
`(USEC_PER_SEC / requests_per_sec) * batch` divides by zero. -/
theorem C17_rate_drops_to_zero :
    run_rps_thread_sleep_time 1 = some 8000000 ∧
    (auto_scale_rps ⟨1, 50, false, stats_zero⟩ false ⟨51, 1⟩).map
      (fun s => s.requests_per_sec) = some 0 ∧
    (auto_scale_rps ⟨1, 50, false, stats_zero⟩ false ⟨51, 1⟩).map
      (fun s => run_rps_thread_sleep_time s.requests_per_sec) = some none := by
  decide

/-! ### Merging with an empty histogram -/

/-- Merging an all-zero histogram keeps every bucket below `2 ^ 32`, a sample
count below `2 ^ 64` and the maximum, and sets the minimum to 0. -/
theorem combine_stats_zero (d : stats) :
    (∀ i, d.plat i < UINT → (combine_stats d stats_zero).plat i = d.plat i) ∧
    (d.nr_samples < ULONG → (combine_stats d stats_zero).nr_samples = d.nr_samples) ∧
    (combine_stats d stats_zero).max = d.max ∧
    (combine_stats d stats_zero).min = 0 := by
  refine ⟨fun i hi => ?_, fun h => ?_, ?_, ?_⟩
  · simp only [combine_stats, stats_zero, Nat.add_zero]
    split_ifs
    · exact Nat.mod_eq_of_lt hi
    · rfl
  · simp only [combine_stats, stats_zero, Nat.add_zero]
    exact Nat.mod_eq_of_lt h
  · simp [combine_stats, stats_zero]
  · simp only [combine_stats, stats_zero]
    split_ifs with h
    · rfl
    · simp only [not_or, Nat.not_lt, Nat.le_zero] at h
      exact absurd h.2 h.1

/-- C18: a histogram holding the single sample 5 has minimum 5; merged with
an all-zero histogram its minimum is 0; and merged after that with a
histogram holding the single sample 7 its minimum is 7, although 5 was
recorded. -/
theorem C18_zero_resets_min :
    (add_lat stats_zero 5).min = 5 ∧
    (combine_stats (add_lat stats_zero 5) stats_zero).min = 0 ∧
    (combine_stats (combine_stats (add_lat stats_zero 5) stats_zero)
      (add_lat stats_zero 7)).min = 7 ∧
    (combine_stats (add_lat stats_zero 5) (add_lat stats_zero 7)).min = 5 := by
  decide

/-! ### Every bucket holds its own value -/

/-- The bucket of the value `2 ^ (e + 9) + (2 * k + 1) * 2 ^ e`, the value of
bucket `(e + 2) * 256 + k`, is that bucket. -/
theorem plat_val_to_idx_mid (e k : Nat) (he : e ≤ 16) (hk : k < 256) :
    plat_val_to_idx (2 ^ (e + 9) + (2 * k + 1) * 2 ^ e) = (e + 2) * 256 + k := by
  have hP : 0 < 2 ^ e := by positivity
  have p1 : ∀ n, 2 ^ (n + 1) = 2 * 2 ^ n := fun n => by ring
  have p9 : ∀ n, 2 ^ (n + 9) = 512 * 2 ^ n := fun n => by ring
  have p10 : ∀ n, 2 ^ (n + 10) = 1024 * 2 ^ n := fun n => by ring
  have hv : 2 ^ (e + 9) + (2 * k + 1) * 2 ^ e = (513 + 2 * k) * 2 ^ e := by
    rw [p9]; ring
  have hlo : 512 * 2 ^ e ≤ (513 + 2 * k) * 2 ^ e := Nat.mul_le_mul_right _ (by omega)
  have hhi : (513 + 2 * k) * 2 ^ e < 1024 * 2 ^ e :=
    Nat.mul_lt_mul_of_pos_right (by omega) hP
  have h26 : 1024 * 2 ^ e ≤ 2 ^ 26 := by
    have := Nat.pow_le_pow_right (n := 2) (by norm_num) (show e + 10 ≤ 26 by omega)
    rw [p10] at this
    exact this
  have h512 : 512 ≤ (513 + 2 * k) * 2 ^ e := by
    have : 512 * 1 ≤ 512 * 2 ^ e := Nat.mul_le_mul_left _ hP
    omega
  rw [hv]
  obtain ⟨f, _, lo, hi, hidx⟩ :=
    plat_val_to_idx_large ((513 + 2 * k) * 2 ^ e) h512 (lt_of_lt_of_le hhi h26)
  have hfe : f = e := by
    have a1 : 2 ^ (f + 9) < 2 ^ (e + 10) := by
      rw [p10]; exact lt_of_le_of_lt lo hhi
    have a2 : 2 ^ (e + 9) < 2 ^ (f + 10) := by
      rw [p9]; exact lt_of_le_of_lt hlo hi
    have b1 := (Nat.pow_lt_pow_iff_right (by norm_num : 1 < 2)).mp a1
    have b2 := (Nat.pow_lt_pow_iff_right (by norm_num : 1 < 2)).mp a2
    omega
  subst hfe
  have hdiv : (513 + 2 * k) * 2 ^ f / 2 ^ (f + 1) = 256 + k := by
    rw [p1, Nat.mul_div_mul_right _ _ hP]
    omega
  rw [hidx, hdiv]
  omega

/-- C19: for every index `i` below `PLAT_NR`, `plat_idx_to_val` returns a
value `v` whose bucket is `i`. Below 512 the value is `i` itself; from 512 on,
with `error_bits = i / 256 - 1` and `k = i % 256` as in the source, the term
`(k + 0.5) * 2 ^ error_bits` is a natural number `n` and `v` is exactly
`2 ^ (error_bits + 8) + n`: no rounding and no truncation occurs. -/
theorem C19_bucket_of_own_value (i : Nat) (hi : i < PLAT_NR) :
    ∃ v, plat_idx_to_val i = some v ∧ plat_val_to_idx v = i ∧
      (i < 512 → v = i) ∧
      (512 ≤ i → ∃ n : Nat,
        ((i % 256 : Nat) + 1 / 2 : ℚ) * 2 ^ (i / 256 - 1) = (n : ℚ) ∧
        v = 2 ^ (i / 256 - 1 + 8) + n) := by
  rw [PLAT_NR_eq] at hi
  rcases Nat.lt_or_ge i 512 with hs | hl
  · exact ⟨i, plat_idx_to_val_small i hs, plat_val_to_idx_small i hs, fun _ => rfl,
      fun h => absurd h (by omega)⟩
  · obtain ⟨e, he⟩ : ∃ e, i / 256 = e + 2 := ⟨i / 256 - 2, by omega⟩
    have hk : i % 256 < 256 := Nat.mod_lt _ (by norm_num)
    have hdm := Nat.div_add_mod i 256
    refine ⟨_, plat_idx_to_val_large i hl hi, ?_, fun h => absurd h (by omega), fun _ => ?_⟩
    · rw [he, show e + 2 + 7 = e + 9 by omega, Nat.add_sub_cancel,
        plat_val_to_idx_mid e (i % 256) (by omega) hk]
      omega
    · refine ⟨(2 * (i % 256) + 1) * 2 ^ e, ?_, ?_⟩
      · rw [he, show e + 2 - 1 = e + 1 by omega, pow_succ]
        push_cast
        ring
      · rw [he, show e + 2 + 7 = e + 9 by omega, show e + 2 - 1 + 8 = e + 9 by omega,
          Nat.add_sub_cancel]

theorem C19_bucket_of_own_value_witness :
    4863 < PLAT_NR ∧
    ∃ v, plat_idx_to_val 4863 = some v ∧ plat_val_to_idx v = 4863 ∧
      (4863 < 512 → v = 4863) ∧
      (512 ≤ 4863 → ∃ n : Nat,
        ((4863 % 256 : Nat) + 1 / 2 : ℚ) * 2 ^ (4863 / 256 - 1) = (n : ℚ) ∧
        v = 2 ^ (4863 / 256 - 1 + 8) + n) :=
  ⟨by decide, C19_bucket_of_own_value 4863 (by decide)⟩

end Schbench
